import Mathlib

/-!
Verification of the Zeno day-timeline optimization engine.

The development shallowly embeds `src/zeno/engine.py` (class
`OptimizationEngine`) and the data model of `src/zeno/models.py`.
Minutes are modelled as `Int`; Python lists become `List`; Python's
stable `sorted` becomes `List.insertionSort` with a reflexive-on-ties
key order (Mathlib's insertion sort is stable in the same way);
the `ValueError` raised on overlapping fixed blocks becomes the
`Except` error carrying the two offending block ids.
-/

namespace Zeno

def MINUTES_PER_DAY : Int := 1440

/-- `Interval` from `engine.py`: a half-open `[start, end)` span in minutes. -/
structure Interval where
  start : Int
  «end» : Int
deriving DecidableEq, Repr

/-- `Interval.duration` property: `end - start`. -/
def Interval.duration (i : Interval) : Int := i.«end» - i.start

/-- `FixedBlock` from `models.py` (string-length bounds elided). -/
structure FixedBlock where
  id : String
  title : String
  start_minute : Int
  end_minute : Int
deriving DecidableEq, Repr

/-- `FlexibleTask` from `models.py`. -/
structure FlexibleTask where
  id : String
  title : String
  duration_minutes : Int
  priority : Int
  category : String
deriving DecidableEq, Repr

/-- `ScheduledTask` from `models.py`. -/
structure ScheduledTask where
  id : String
  title : String
  category : String
  priority : Int
  start_minute : Int
  end_minute : Int
deriving DecidableEq, Repr

/-- The `Literal["fixed", "task", "free"]` slot-type enumeration. -/
inductive SlotType where
  | fixed
  | task
  | free
deriving DecidableEq, Repr

/-- `TimelineSlot` from `models.py`. -/
structure TimelineSlot where
  slot_type : SlotType
  id : String
  title : String
  start_minute : Int
  end_minute : Int
  category : Option String
  priority : Option Int
deriving DecidableEq, Repr

/-- `DayScheduleRequest` from `models.py`. -/
structure DayScheduleRequest where
  fixed_blocks : List FixedBlock
  flexible_tasks : List FlexibleTask
  transition_buffer_minutes : Int
deriving DecidableEq, Repr

/-- `TimelineResponse` from `models.py`. -/
structure TimelineResponse where
  day_start_minute : Int
  day_end_minute : Int
  transition_buffer_minutes : Int
  timeline : List TimelineSlot
  scheduled_tasks : List ScheduledTask
  unscheduled_tasks : List FlexibleTask
deriving DecidableEq, Repr

/-- The numeric field constraints pydantic enforces on a `FixedBlock`,
including its `validate_range` model validator. -/
def FixedBlock.Valid (b : FixedBlock) : Prop :=
  0 ≤ b.start_minute ∧ b.start_minute < MINUTES_PER_DAY ∧
    0 < b.end_minute ∧ b.end_minute ≤ MINUTES_PER_DAY ∧ b.start_minute < b.end_minute

/-- The numeric field constraints pydantic enforces on a `FlexibleTask`. -/
def FlexibleTask.Valid (t : FlexibleTask) : Prop :=
  0 < t.duration_minutes ∧ t.duration_minutes ≤ MINUTES_PER_DAY ∧
    1 ≤ t.priority ∧ t.priority ≤ 3

/-- A structurally valid request, as delivered by the schema layer. -/
def DayScheduleRequest.Valid (r : DayScheduleRequest) : Prop :=
  (∀ b ∈ r.fixed_blocks, b.Valid) ∧ (∀ t ∈ r.flexible_tasks, t.Valid) ∧
    0 ≤ r.transition_buffer_minutes ∧ r.transition_buffer_minutes ≤ 120

instance (b : FixedBlock) : Decidable b.Valid := by
  unfold FixedBlock.Valid; infer_instance

instance (t : FlexibleTask) : Decidable t.Valid := by
  unfold FlexibleTask.Valid; infer_instance

instance (r : DayScheduleRequest) : Decidable r.Valid := by
  unfold DayScheduleRequest.Valid; infer_instance

/-- Sort key order for fixed blocks: `(start_minute, end_minute)` lexicographic. -/
def blockLe (a b : FixedBlock) : Prop :=
  a.start_minute < b.start_minute ∨
    (a.start_minute = b.start_minute ∧ a.end_minute ≤ b.end_minute)

instance : DecidableRel blockLe := fun a b => by
  unfold blockLe; infer_instance

instance : IsTotal FixedBlock blockLe where
  total a b := by unfold blockLe; omega

instance : IsTrans FixedBlock blockLe where
  trans a b c := by unfold blockLe; omega

/-- Sort key order for intervals: `(start, end)` lexicographic. -/
def intervalLe (a b : Interval) : Prop :=
  a.start < b.start ∨ (a.start = b.start ∧ a.«end» ≤ b.«end»)

instance : DecidableRel intervalLe := fun a b => by
  unfold intervalLe; infer_instance

instance : IsTotal Interval intervalLe where
  total a b := by unfold intervalLe; omega

instance : IsTrans Interval intervalLe where
  trans a b c := by unfold intervalLe; omega

/-- Sort key order for occupied timeline slots: `(start_minute, end_minute)`. -/
def slotLe (a b : TimelineSlot) : Prop :=
  a.start_minute < b.start_minute ∨
    (a.start_minute = b.start_minute ∧ a.end_minute ≤ b.end_minute)

instance : DecidableRel slotLe := fun a b => by
  unfold slotLe; infer_instance

instance : IsTotal TimelineSlot slotLe where
  total a b := by unfold slotLe; omega

instance : IsTrans TimelineSlot slotLe where
  trans a b c := by unfold slotLe; omega

/-- Sort key order for the response's scheduled tasks: `start_minute`. -/
def schedLe (a b : ScheduledTask) : Prop :=
  a.start_minute ≤ b.start_minute

instance : DecidableRel schedLe := fun a b => by
  unfold schedLe; infer_instance

/-- Task priority order from `build_day_timeline`:
`(priority, -duration_minutes, title.lower())` lexicographic. -/
def taskLe (a b : FlexibleTask) : Prop :=
  a.priority < b.priority ∨
    (a.priority = b.priority ∧
      (b.duration_minutes < a.duration_minutes ∨
        (b.duration_minutes = a.duration_minutes ∧ a.title.toLower ≤ b.title.toLower)))

instance : DecidableRel taskLe := fun a b => by
  unfold taskLe; infer_instance

/-- The scanning loop of `_sorted_non_overlapping_fixed_blocks`: walk adjacent
pairs of the sorted list and report the first pair with
`curr.start_minute < prev.end_minute`, as the pair of offending ids. -/
def checkOverlaps : List FixedBlock → Option (String × String)
  | [] => none
  | [_] => none
  | p :: c :: rest =>
    if c.start_minute < p.end_minute then some (p.id, c.id)
    else checkOverlaps (c :: rest)

/-- `OptimizationEngine._sorted_non_overlapping_fixed_blocks`: sort by
`(start_minute, end_minute)` and fail with the two conflicting ids if any
adjacent pair overlaps (the Python code raises `ValueError` naming both ids). -/
def sorted_non_overlapping_fixed_blocks (blocks : List FixedBlock) :
    Except (String × String) (List FixedBlock) :=
  let sorted_blocks := List.insertionSort blockLe blocks
  match checkOverlaps sorted_blocks with
  | some e => .error e
  | none => .ok sorted_blocks

/-- The buffered interval built for one fixed block inside `_available_gaps`. -/
def bufferInterval (transition_buffer_minutes : Int) (block : FixedBlock) : Interval :=
  ⟨max 0 (block.start_minute - transition_buffer_minutes),
    min MINUTES_PER_DAY (block.end_minute + transition_buffer_minutes)⟩

/-- The scan of `_merge_intervals`: `last` is the interval currently at the end
of the accumulated `merged` list; a current interval with
`current.start <= last.end` is merged into it, otherwise `last` is final. -/
def mergeLoop (last : Interval) : List Interval → List Interval
  | [] => [last]
  | current :: rest =>
    if current.start ≤ last.«end» then
      mergeLoop ⟨last.start, max last.«end» current.«end»⟩ rest
    else
      last :: mergeLoop current rest

/-- `OptimizationEngine._merge_intervals`. -/
def merge_intervals (intervals : List Interval) : List Interval :=
  match List.insertionSort intervalLe intervals with
  | [] => []
  | first :: rest => mergeLoop first rest

/-- The cursor walk of `_available_gaps`: emit `[cursor, interval.start)`
whenever the cursor is strictly before the next merged interval, advance the
cursor to `max cursor interval.end`, and close with a trailing gap to the end
of the day when one remains. -/
def gapsLoop (cursor : Int) : List Interval → List Interval
  | [] => if cursor < MINUTES_PER_DAY then [⟨cursor, MINUTES_PER_DAY⟩] else []
  | interval :: rest =>
    (if cursor < interval.start then [Interval.mk cursor interval.start] else []) ++
      gapsLoop (max cursor interval.«end») rest

/-- `OptimizationEngine._available_gaps`. -/
def available_gaps (fixed_blocks : List FixedBlock)
    (transition_buffer_minutes : Int) : List Interval :=
  if fixed_blocks.isEmpty then [⟨0, MINUTES_PER_DAY⟩]
  else
    gapsLoop 0 (merge_intervals (fixed_blocks.map (bufferInterval transition_buffer_minutes)))

/-- Python's `max(fitting, key=lambda item: item[1])`: left-to-right fold that
keeps the first element attaining the maximal second component. -/
def maxByFirst (best : Nat × Int) : List (Nat × Int) → Nat × Int
  | [] => best
  | x :: xs => maxByFirst (if best.2 < x.2 then x else best) xs

/-- `OptimizationEngine._largest_fitting_gap_index`: enumerate the gaps, keep
the `(index, duration)` pairs of those whose duration fits the task, and
return the index of the maximal-duration pair (first such pair on ties). -/
def largest_fitting_gap_index (gaps : List Interval) (duration_minutes : Int) :
    Option Nat :=
  match (gaps.enum.filter fun p => decide (duration_minutes ≤ p.2.duration)).map
      (fun p => (p.1, p.2.duration)) with
  | [] => none
  | x :: xs => some (maxByFirst x xs).1

/-- The mutable state of the task-assignment loop in `build_day_timeline`. -/
structure AssignState where
  available_gaps : List Interval
  scheduled_tasks : List ScheduledTask
  unscheduled_tasks : List FlexibleTask
deriving DecidableEq, Repr

/-- One iteration of the `for task in prioritized_tasks` loop of
`build_day_timeline`: either record the task as unscheduled, or pop the
selected gap, bind the task to its start, and push back any leftover. -/
def assignStep (st : AssignState) (task : FlexibleTask) : AssignState :=
  match largest_fitting_gap_index st.available_gaps task.duration_minutes with
  | none => { st with unscheduled_tasks := st.unscheduled_tasks ++ [task] }
  | some gap_index =>
    let gap := (st.available_gaps[gap_index]?).getD ⟨0, 0⟩
    let remaining := st.available_gaps.eraseIdx gap_index
    let start := gap.start
    let stop := start + task.duration_minutes
    { available_gaps :=
        if stop < gap.«end» then remaining ++ [⟨stop, gap.«end»⟩] else remaining,
      scheduled_tasks := st.scheduled_tasks ++
        [{ id := task.id, title := task.title, category := task.category,
           priority := task.priority, start_minute := start, end_minute := stop }],
      unscheduled_tasks := st.unscheduled_tasks }

/-- The whole assignment loop over the prioritized task list. -/
def assignLoop (st : AssignState) : List FlexibleTask → AssignState
  | [] => st
  | task :: rest => assignLoop (assignStep st task) rest

/-- All intermediate states of the assignment loop (initial state included),
used to speak about every pool state reachable during assignment. -/
def assignStates (st : AssignState) : List FlexibleTask → List AssignState
  | [] => [st]
  | task :: rest => st :: assignStates (assignStep st task) rest

/-- The `fixed` timeline slot built from a fixed block in `_compose_timeline`. -/
def fixedSlot (block : FixedBlock) : TimelineSlot :=
  { slot_type := .fixed, id := block.id, title := block.title,
    start_minute := block.start_minute, end_minute := block.end_minute,
    category := none, priority := none }

/-- The `task` timeline slot built from a scheduled task in `_compose_timeline`. -/
def taskSlot (task : ScheduledTask) : TimelineSlot :=
  { slot_type := .task, id := task.id, title := task.title,
    start_minute := task.start_minute, end_minute := task.end_minute,
    category := some task.category, priority := some task.priority }

/-- The synthetic `free` slot of `_compose_timeline`, with its id derived from
its bounds as in the Python f-string. -/
def freeSlot (s e : Int) : TimelineSlot :=
  { slot_type := .free, id := "free-" ++ toString s ++ "-" ++ toString e,
    title := "Free", start_minute := s, end_minute := e,
    category := none, priority := none }

/-- The cursor walk of `_compose_timeline` over the sorted occupied slots. -/
def composeLoop (cursor : Int) : List TimelineSlot → List TimelineSlot
  | [] => if cursor < MINUTES_PER_DAY then [freeSlot cursor MINUTES_PER_DAY] else []
  | slot :: rest =>
    (if cursor < slot.start_minute then [freeSlot cursor slot.start_minute] else []) ++
      (slot :: composeLoop (max cursor slot.end_minute) rest)

/-- `OptimizationEngine._compose_timeline`. -/
def compose_timeline (fixed_blocks : List FixedBlock)
    (scheduled_tasks : List ScheduledTask) : List TimelineSlot :=
  composeLoop 0
    (List.insertionSort slotLe
      (fixed_blocks.map fixedSlot ++ scheduled_tasks.map taskSlot))

/-- `OptimizationEngine.build_day_timeline`. -/
def build_day_timeline (request : DayScheduleRequest) :
    Except (String × String) TimelineResponse :=
  match sorted_non_overlapping_fixed_blocks request.fixed_blocks with
  | .error e => .error e
  | .ok fixed_blocks =>
    let gaps0 := available_gaps fixed_blocks request.transition_buffer_minutes
    let prioritized_tasks := List.insertionSort taskLe request.flexible_tasks
    let st := assignLoop ⟨gaps0, [], []⟩ prioritized_tasks
    .ok { day_start_minute := 0, day_end_minute := MINUTES_PER_DAY,
          transition_buffer_minutes := request.transition_buffer_minutes,
          timeline := compose_timeline fixed_blocks st.scheduled_tasks,
          scheduled_tasks := List.insertionSort schedLe st.scheduled_tasks,
          unscheduled_tasks := st.unscheduled_tasks }

instance {ε α : Type} [DecidableEq ε] [DecidableEq α] : DecidableEq (Except ε α) := fun a b =>
  match a, b with
  | .error e, .error f => if h : e = f then .isTrue (by rw [h]) else .isFalse (by simp [h])
  | .ok x, .ok y => if h : x = y then .isTrue (by rw [h]) else .isFalse (by simp [h])
  | .error _, .ok _ => .isFalse (by simp)
  | .ok _, .error _ => .isFalse (by simp)

/-! ### Derived interval views and disjointness -/

/-- The half-open interval occupied by a fixed block. -/
def FixedBlock.interval (b : FixedBlock) : Interval := ⟨b.start_minute, b.end_minute⟩

/-- The half-open interval occupied by a scheduled task. -/
def ScheduledTask.interval (s : ScheduledTask) : Interval := ⟨s.start_minute, s.end_minute⟩

/-- The half-open interval occupied by a timeline slot. -/
def TimelineSlot.interval (s : TimelineSlot) : Interval := ⟨s.start_minute, s.end_minute⟩

/-- Two half-open intervals do not overlap. -/
def DisjI (a b : Interval) : Prop := a.«end» ≤ b.start ∨ b.«end» ≤ a.start

/-- A non-degenerate interval inside the day `[0, 1440)`. -/
def InDay (g : Interval) : Prop :=
  0 ≤ g.start ∧ g.start < g.«end» ∧ g.«end» ≤ MINUTES_PER_DAY

theorem DisjI.symm {a b : Interval} (h : DisjI a b) : DisjI b a := h.elim .inr .inl

/-- An interval contained in a second interval is disjoint from whatever the
second is disjoint from. -/
theorem DisjI.mono {g a x : Interval} (hs : g.start ≤ a.start) (he : a.«end» ≤ g.«end»)
    (h : DisjI x g) : DisjI x a := by
  unfold DisjI at h ⊢; omega

/-! ### Chain predicates

`IChain c l` says the intervals of `l` appear in increasing order, starting no
earlier than the cursor `c`, each non-degenerate, and ending by the end of the
day; the analogous `BChain` / `OccChain` speak about fixed blocks and occupied
timeline slots, and `SlotChainFrom` is the exact-tiling property of an emitted
timeline: each slot starts exactly where the previous one ended, from `c`
through `1440`. -/

def IChain (cursor : Int) : List Interval → Prop
  | [] => cursor ≤ MINUTES_PER_DAY
  | g :: rest => cursor ≤ g.start ∧ g.start < g.«end» ∧ IChain g.«end» rest

def BChain (cursor : Int) : List FixedBlock → Prop
  | [] => cursor ≤ MINUTES_PER_DAY
  | b :: rest => cursor ≤ b.start_minute ∧ b.start_minute < b.end_minute ∧
      BChain b.end_minute rest

def OccChain (cursor : Int) : List TimelineSlot → Prop
  | [] => cursor ≤ MINUTES_PER_DAY
  | s :: rest => cursor ≤ s.start_minute ∧ s.start_minute < s.end_minute ∧
      OccChain s.end_minute rest

def SlotChainFrom (cursor : Int) : List TimelineSlot → Prop
  | [] => cursor = MINUTES_PER_DAY
  | s :: rest => s.start_minute = cursor ∧ s.start_minute < s.end_minute ∧
      SlotChainFrom s.end_minute rest

theorem ichain_le : ∀ {l : List Interval} {c : Int}, IChain c l → c ≤ MINUTES_PER_DAY
  | [], _, h => h
  | _ :: _, _, h => le_trans (le_trans h.1 (le_of_lt h.2.1)) (ichain_le h.2.2)

theorem ichain_mem : ∀ (l : List Interval) (c : Int), IChain c l →
    ∀ g ∈ l, c ≤ g.start ∧ g.start < g.«end» ∧ g.«end» ≤ MINUTES_PER_DAY := by
  intro l
  induction l with
  | nil => intro c _ g hg; cases hg
  | cons a rest ih =>
    intro c h g hg
    obtain ⟨h1, h2, h3⟩ := h
    rcases List.mem_cons.mp hg with rfl | hg'
    · exact ⟨h1, h2, ichain_le h3⟩
    · have hr := ih a.«end» h3 g hg'
      exact ⟨by omega, hr.2⟩

theorem ichain_weaken {c c' : Int} (hcc : c ≤ c') :
    ∀ {l : List Interval}, IChain c' l → IChain c l
  | [], h => le_trans hcc h
  | _ :: _, h => ⟨le_trans hcc h.1, h.2⟩

theorem ichain_pairwise : ∀ (l : List Interval) (c : Int), IChain c l →
    List.Pairwise DisjI l := by
  intro l
  induction l with
  | nil => intro _ _; exact List.Pairwise.nil
  | cons a rest ih =>
    intro c h
    obtain ⟨h1, h2, h3⟩ := h
    refine List.Pairwise.cons ?_ (ih _ h3)
    intro b hb
    have hr := ichain_mem rest a.«end» h3 b hb
    exact Or.inl (by omega)

theorem bchain_le : ∀ {l : List FixedBlock} {c : Int}, BChain c l → c ≤ MINUTES_PER_DAY
  | [], _, h => h
  | _ :: _, _, h => le_trans (le_trans h.1 (le_of_lt h.2.1)) (bchain_le h.2.2)

theorem bchain_mem : ∀ (l : List FixedBlock) (c : Int), BChain c l →
    ∀ b ∈ l, c ≤ b.start_minute ∧ b.start_minute < b.end_minute ∧
      b.end_minute ≤ MINUTES_PER_DAY := by
  intro l
  induction l with
  | nil => intro c _ b hb; cases hb
  | cons a rest ih =>
    intro c h b hb
    obtain ⟨h1, h2, h3⟩ := h
    rcases List.mem_cons.mp hb with rfl | hb'
    · exact ⟨h1, h2, bchain_le h3⟩
    · have hr := ih a.end_minute h3 b hb'
      exact ⟨by omega, hr.2⟩

theorem bchain_pairwise : ∀ (l : List FixedBlock) (c : Int), BChain c l →
    List.Pairwise (fun a b => a.end_minute ≤ b.start_minute) l := by
  intro l
  induction l with
  | nil => intro _ _; exact List.Pairwise.nil
  | cons a rest ih =>
    intro c h
    obtain ⟨h1, h2, h3⟩ := h
    refine List.Pairwise.cons ?_ (ih _ h3)
    intro b hb
    have hr := bchain_mem rest a.end_minute h3 b hb
    omega

theorem slotchain_le : ∀ {l : List TimelineSlot} {c : Int},
    SlotChainFrom c l → c ≤ MINUTES_PER_DAY
  | [], _, h => le_of_eq h
  | _ :: _, _, h => by
    obtain ⟨h1, h2, h3⟩ := h
    have := slotchain_le h3
    omega

theorem slotchain_mem : ∀ (l : List TimelineSlot) (c : Int), SlotChainFrom c l →
    ∀ s ∈ l, c ≤ s.start_minute ∧ s.start_minute < s.end_minute ∧
      s.end_minute ≤ MINUTES_PER_DAY := by
  intro l
  induction l with
  | nil => intro c _ s hs; cases hs
  | cons a rest ih =>
    intro c h s hs
    obtain ⟨h1, h2, h3⟩ := h
    rcases List.mem_cons.mp hs with rfl | hs'
    · exact ⟨le_of_eq h1.symm, h2, slotchain_le h3⟩
    · have hr := ih a.end_minute h3 s hs'
      exact ⟨by omega, hr.2⟩

theorem slotchain_pairwise : ∀ (l : List TimelineSlot) (c : Int), SlotChainFrom c l →
    List.Pairwise (fun a b => a.end_minute ≤ b.start_minute) l := by
  intro l
  induction l with
  | nil => intro _ _; exact List.Pairwise.nil
  | cons a rest ih =>
    intro c h
    obtain ⟨h1, h2, h3⟩ := h
    refine List.Pairwise.cons ?_ (ih _ h3)
    intro b hb
    have hr := slotchain_mem rest a.end_minute h3 b hb
    omega

/-! ### Gap selection: `enumerate` + `max` semantics -/

theorem enumFrom_mem_spec {α : Type} : ∀ (l : List α) (n : Nat) (p : Nat × α),
    p ∈ List.enumFrom n l → n ≤ p.1 ∧ l[p.1 - n]? = some p.2 := by
  intro l
  induction l with
  | nil => intro n p hp; cases hp
  | cons x xs ih =>
    intro n p hp
    rcases List.mem_cons.mp hp with rfl | hp'
    · simp
    · have := ih (n + 1) p hp'
      refine ⟨by omega, ?_⟩
      have hx : p.1 - n = (p.1 - (n + 1)) + 1 := by omega
      rw [hx, List.getElem?_cons_succ]
      exact this.2

theorem enumFrom_get {α : Type} : ∀ (l : List α) (n i : Nat) (a : α),
    l[i]? = some a → (n + i, a) ∈ List.enumFrom n l := by
  intro l
  induction l with
  | nil => intro n i a h; simp at h
  | cons x xs ih =>
    intro n i a h
    cases i with
    | zero =>
      simp at h
      subst h
      simp [List.enumFrom]
    | succ j =>
      rw [List.getElem?_cons_succ] at h
      have := ih (n + 1) j a h
      have hx : n + (j + 1) = (n + 1) + j := by omega
      rw [hx]
      exact List.mem_cons.mpr (Or.inr this)

theorem enumFrom_pairwise {α : Type} : ∀ (l : List α) (n : Nat),
    List.Pairwise (fun p q => p.1 < q.1) (List.enumFrom n l) := by
  intro l
  induction l with
  | nil => intro n; exact List.Pairwise.nil
  | cons x xs ih =>
    intro n
    refine List.Pairwise.cons ?_ (ih (n + 1))
    intro q hq
    have := enumFrom_mem_spec xs (n + 1) q hq
    simp only
    omega

theorem maxByFirst_cons (best x : Nat × Int) (xs : List (Nat × Int)) :
    maxByFirst best (x :: xs) = maxByFirst (if best.2 < x.2 then x else best) xs := rfl

theorem maxByFirst_mem : ∀ (l : List (Nat × Int)) (best : Nat × Int),
    maxByFirst best l = best ∨ maxByFirst best l ∈ l := by
  intro l
  induction l with
  | nil => intro best; exact Or.inl rfl
  | cons x xs ih =>
    intro best
    rcases lt_or_le best.2 x.2 with h | h
    · rw [maxByFirst_cons, if_pos h]
      rcases ih x with h2 | h2
      · rw [h2]; exact Or.inr (List.mem_cons_self _ _)
      · exact Or.inr (List.mem_cons.mpr (Or.inr h2))
    · rw [maxByFirst_cons, if_neg (not_lt.mpr h)]
      rcases ih best with h2 | h2
      · exact Or.inl h2
      · exact Or.inr (List.mem_cons.mpr (Or.inr h2))

theorem maxByFirst_le : ∀ (l : List (Nat × Int)) (best : Nat × Int),
    best.2 ≤ (maxByFirst best l).2 ∧ ∀ x ∈ l, x.2 ≤ (maxByFirst best l).2 := by
  intro l
  induction l with
  | nil => intro best; exact ⟨le_refl _, by intro x hx; cases hx⟩
  | cons x xs ih =>
    intro best
    rcases lt_or_le best.2 x.2 with h | h
    · rw [maxByFirst_cons, if_pos h]
      have hr := ih x
      refine ⟨by omega, ?_⟩
      intro y hy
      rcases List.mem_cons.mp hy with rfl | hy'
      · exact hr.1
      · exact hr.2 y hy'
    · rw [maxByFirst_cons, if_neg (not_lt.mpr h)]
      have hr := ih best
      refine ⟨hr.1, ?_⟩
      intro y hy
      rcases List.mem_cons.mp hy with rfl | hy'
      · omega
      · exact hr.2 y hy'

theorem maxByFirst_strict : ∀ (l : List (Nat × Int)) (best : Nat × Int),
    List.Pairwise (fun p q => p.1 < q.1) (best :: l) →
    maxByFirst best l ∈ l → best.2 < (maxByFirst best l).2 := by
  intro l
  induction l with
  | nil => intro best _ h; cases h
  | cons x xs ih =>
    intro best hpw hmem
    have hpw' := List.pairwise_cons.mp hpw
    have hpwx := List.pairwise_cons.mp hpw'.2
    have hpwbxs : List.Pairwise (fun p q => p.1 < q.1) (best :: xs) :=
      List.pairwise_cons.mpr
        ⟨fun q hq => hpw'.1 q (List.mem_cons.mpr (Or.inr hq)), hpwx.2⟩
    rcases lt_or_le best.2 x.2 with h | h
    · rw [maxByFirst_cons, if_pos h]
      have := (maxByFirst_le xs x).1
      omega
    · rw [maxByFirst_cons, if_neg (not_lt.mpr h)]
      rw [maxByFirst_cons, if_neg (not_lt.mpr h)] at hmem
      rcases maxByFirst_mem xs best with he | he
      · exfalso
        rw [he] at hmem
        rcases List.mem_cons.mp hmem with he2 | he2
        · have := hpw'.1 x (List.mem_cons_self _ _)
          rw [he2] at this
          omega
        · have := hpw'.1 best (List.mem_cons.mpr (Or.inr he2))
          omega
      · exact ih best hpwbxs he

theorem maxByFirst_first : ∀ (l : List (Nat × Int)) (best : Nat × Int),
    List.Pairwise (fun p q => p.1 < q.1) (best :: l) →
    ∀ y ∈ best :: l, y.1 < (maxByFirst best l).1 → y.2 < (maxByFirst best l).2 := by
  intro l
  induction l with
  | nil =>
    intro best _ y hy hlt
    rcases List.mem_cons.mp hy with rfl | hy'
    · exact absurd hlt (by simp [maxByFirst])
    · cases hy'
  | cons x xs ih =>
    intro best hpw y hy hlt
    have hpw' := List.pairwise_cons.mp hpw
    have hpwx := List.pairwise_cons.mp hpw'.2
    have hpwbxs : List.Pairwise (fun p q => p.1 < q.1) (best :: xs) :=
      List.pairwise_cons.mpr
        ⟨fun q hq => hpw'.1 q (List.mem_cons.mpr (Or.inr hq)), hpwx.2⟩
    rcases lt_or_le best.2 x.2 with h | h
    · rw [maxByFirst_cons, if_pos h] at hlt ⊢
      rcases List.mem_cons.mp hy with rfl | hy'
      · have := (maxByFirst_le xs x).1
        omega
      · exact ih x hpw'.2 y hy' hlt
    · rw [maxByFirst_cons, if_neg (not_lt.mpr h)] at hlt ⊢
      rcases List.mem_cons.mp hy with rfl | hy'
      · exact ih y hpwbxs y (List.mem_cons_self _ _) hlt
      · rcases List.mem_cons.mp hy' with rfl | hy2
        · rcases maxByFirst_mem xs best with he | he
          · exfalso
            rw [he] at hlt
            have := hpw'.1 y (List.mem_cons_self _ _)
            omega
          · have := maxByFirst_strict xs best hpwbxs he
            omega
        · exact ih best hpwbxs y (List.mem_cons.mpr (Or.inr hy2)) hlt

/-- The `(index, duration)` pairs the gap selector builds (`fitting` in the
Python code). -/
def fittingPairs (gaps : List Interval) (duration_minutes : Int) : List (Nat × Int) :=
  (gaps.enum.filter fun p => decide (duration_minutes ≤ p.2.duration)).map
    (fun p => (p.1, p.2.duration))

theorem largest_fitting_gap_index_eq (gaps : List Interval) (d : Int) :
    largest_fitting_gap_index gaps d =
      match fittingPairs gaps d with
      | [] => none
      | x :: xs => some (maxByFirst x xs).1 := rfl

theorem fittingPairs_mem_spec (gaps : List Interval) (d : Int) (q : Nat × Int)
    (hq : q ∈ fittingPairs gaps d) :
    ∃ g, gaps[q.1]? = some g ∧ q.2 = g.duration ∧ d ≤ g.duration := by
  obtain ⟨p, hp, hpq⟩ := List.mem_map.mp hq
  have hf := List.mem_filter.mp hp
  have hd : d ≤ p.2.duration := of_decide_eq_true hf.2
  have he := enumFrom_mem_spec gaps 0 p hf.1
  subst hpq
  exact ⟨p.2, by simpa using he.2, rfl, hd⟩

theorem fittingPairs_complete (gaps : List Interval) (d : Int) (j : Nat) (g : Interval)
    (hj : gaps[j]? = some g) (hd : d ≤ g.duration) :
    (j, g.duration) ∈ fittingPairs gaps d := by
  have hmem := enumFrom_get gaps 0 j g hj
  rw [Nat.zero_add] at hmem
  exact List.mem_map.mpr ⟨(j, g), List.mem_filter.mpr ⟨hmem, decide_eq_true hd⟩, rfl⟩

theorem fittingPairs_pairwise (gaps : List Interval) (d : Int) :
    List.Pairwise (fun p q => p.1 < q.1) (fittingPairs gaps d) := by
  apply List.pairwise_map.mpr
  exact (enumFrom_pairwise gaps 0).sublist (List.filter_sublist _)

/-- Behavior of `_largest_fitting_gap_index`: when it returns an index `i`, the
gap at `i` fits, its duration is maximal among the fitting gaps, and every
fitting gap at a smaller index has strictly smaller duration (Python's `max`
keeps the first maximum in pool order). -/
theorem largest_fitting_gap_index_spec (gaps : List Interval) (d : Int) (i : Nat)
    (h : largest_fitting_gap_index gaps d = some i) :
    ∃ g, gaps[i]? = some g ∧ d ≤ g.duration ∧
      (∀ (j : Nat) (g' : Interval), gaps[j]? = some g' → d ≤ g'.duration →
        g'.duration ≤ g.duration) ∧
      (∀ (j : Nat) (g' : Interval), j < i → gaps[j]? = some g' → d ≤ g'.duration →
        g'.duration < g.duration) := by
  rw [largest_fitting_gap_index_eq] at h
  cases hfit : fittingPairs gaps d with
  | nil => rw [hfit] at h; cases h
  | cons x xs =>
    rw [hfit] at h
    obtain rfl : (maxByFirst x xs).1 = i := by injection h
    have hrmem : maxByFirst x xs ∈ fittingPairs gaps d := by
      rw [hfit]
      rcases maxByFirst_mem xs x with he | he
      · rw [he]; exact List.mem_cons_self _ _
      · exact List.mem_cons.mpr (Or.inr he)
    obtain ⟨g, hg, hdur, hfitg⟩ := fittingPairs_mem_spec gaps d _ hrmem
    have hpw : List.Pairwise (fun p q => p.1 < q.1) (x :: xs) := by
      rw [← hfit]; exact fittingPairs_pairwise gaps d
    refine ⟨g, hg, hfitg, ?_, ?_⟩
    · intro j g' hj hd'
      have hjm : (j, g'.duration) ∈ x :: xs := by
        rw [← hfit]; exact fittingPairs_complete gaps d j g' hj hd'
      have hle := maxByFirst_le xs x
      rcases List.mem_cons.mp hjm with he | he
      · have h1 : g'.duration = x.2 := by rw [← he]
        rw [h1, ← hdur]; exact hle.1
      · rw [← hdur]; exact hle.2 _ he
    · intro j g' hji hj hd'
      have hjm : (j, g'.duration) ∈ x :: xs := by
        rw [← hfit]; exact fittingPairs_complete gaps d j g' hj hd'
      have := maxByFirst_first xs x hpw (j, g'.duration) hjm hji
      rw [← hdur]; exact this

/-! ### The overlap check -/

theorem checkOverlaps_cons2 (x y : FixedBlock) (rest : List FixedBlock) :
    checkOverlaps (x :: y :: rest) =
      if y.start_minute < x.end_minute then some (x.id, y.id)
      else checkOverlaps (y :: rest) := rfl

theorem checkOverlaps_none_iff : ∀ (l : List FixedBlock),
    checkOverlaps l = none ↔
      ∀ (i : Nat) (p c : FixedBlock), l[i]? = some p → l[i + 1]? = some c →
        p.end_minute ≤ c.start_minute := by
  intro l
  induction l with
  | nil =>
    constructor
    · intro _ i p c hp _; simp at hp
    · intro _; rfl
  | cons a tail ih =>
    cases tail with
    | nil =>
      constructor
      · intro _ i p c hp hc
        rcases i with _ | j
        · simp at hc
        · simp at hp
      · intro _; rfl
    | cons b rest =>
      rw [checkOverlaps_cons2]
      rcases lt_or_le b.start_minute a.end_minute with h | h
      · rw [if_pos h]
        constructor
        · intro hx; cases hx
        · intro hall
          have := hall 0 a b (by simp) (by simp)
          omega
      · rw [if_neg (not_lt.mpr h), ih]
        constructor
        · intro htail i p c hp hc
          rcases i with _ | j
          · have hpa : p = a := by simpa using hp.symm
            have hcb : c = b := by simpa using hc.symm
            subst hpa; subst hcb
            exact h
          · exact htail j p c (by simpa using hp) (by simpa using hc)
        · intro hall i p c hp hc
          exact hall (i + 1) p c (by simpa using hp) (by simpa using hc)

theorem checkOverlaps_some : ∀ (l : List FixedBlock) (a b : String),
    checkOverlaps l = some (a, b) →
    ∃ (i : Nat) (p c : FixedBlock), l[i]? = some p ∧ l[i + 1]? = some c ∧
      c.start_minute < p.end_minute ∧ p.id = a ∧ c.id = b := by
  intro l
  induction l with
  | nil => intro a b h; cases h
  | cons x tail ih =>
    cases tail with
    | nil => intro a b h; cases h
    | cons y rest =>
      intro a b h
      rw [checkOverlaps_cons2] at h
      rcases lt_or_le y.start_minute x.end_minute with hlt | hle
      · rw [if_pos hlt] at h
        injection h with h2
        obtain ⟨ha, hb⟩ := Prod.mk.inj h2
        exact ⟨0, x, y, by simp, by simp, hlt, ha, hb⟩
      · rw [if_neg (not_lt.mpr hle)] at h
        obtain ⟨i, p, c, hp, hc, hov, ha, hb⟩ := ih a b h
        exact ⟨i + 1, p, c, by simpa using hp, by simpa using hc, hov, ha, hb⟩

theorem checkOverlaps_chain : ∀ (l : List FixedBlock) (cu : Int),
    (∀ b ∈ l, b.Valid) → checkOverlaps l = none → cu ≤ MINUTES_PER_DAY →
    (match l with | [] => True | b :: _ => cu ≤ b.start_minute) →
    BChain cu l := by
  intro l
  induction l with
  | nil => intro cu _ _ hd _; exact hd
  | cons b rest ih =>
    intro cu hv hchk _ hcu
    have hbv := hv b (List.mem_cons_self _ _)
    obtain ⟨hb0, hb1, hb2, hb3, hb4⟩ := hbv
    refine ⟨hcu, hb4, ?_⟩
    cases rest with
    | nil => exact hb3
    | cons c rest' =>
      rw [checkOverlaps_cons2] at hchk
      rcases lt_or_le c.start_minute b.end_minute with h | h
      · rw [if_pos h] at hchk; cases hchk
      · rw [if_neg (not_lt.mpr h)] at hchk
        exact ih b.end_minute (fun x hx => hv x (List.mem_cons.mpr (Or.inr hx)))
          hchk hb3 h

/-- Inversion of the validator: on success the result is the stable sort of
the input, the adjacent-overlap scan found nothing, and (for valid blocks) the
result is a strictly increasing chain of non-degenerate day intervals. -/
theorem sorted_ok_spec (blocks sb : List FixedBlock)
    (h : sorted_non_overlapping_fixed_blocks blocks = .ok sb) :
    sb = List.insertionSort blockLe blocks ∧ checkOverlaps sb = none := by
  unfold sorted_non_overlapping_fixed_blocks at h
  cases hc : checkOverlaps (List.insertionSort blockLe blocks) with
  | some e => simp only [hc] at h; exact Except.noConfusion h
  | none =>
    simp only [hc] at h
    injection h with h2
    exact ⟨h2.symm, h2 ▸ hc⟩

theorem sorted_ok_bchain (blocks sb : List FixedBlock)
    (hv : ∀ b ∈ blocks, b.Valid)
    (h : sorted_non_overlapping_fixed_blocks blocks = .ok sb) : BChain 0 sb := by
  obtain ⟨hsb, hchk⟩ := sorted_ok_spec blocks sb h
  have hvs : ∀ b ∈ sb, b.Valid := by
    intro b hb
    rw [hsb] at hb
    exact hv b ((List.mem_insertionSort blockLe).mp hb)
  apply checkOverlaps_chain sb 0 hvs hchk (by simp [MINUTES_PER_DAY])
  cases sb with
  | nil => trivial
  | cons b rest => exact (hvs b (List.mem_cons_self _ _)).1

theorem sorted_error_iff (blocks : List FixedBlock) (e : String × String) :
    sorted_non_overlapping_fixed_blocks blocks = .error e ↔
      checkOverlaps (List.insertionSort blockLe blocks) = some e := by
  unfold sorted_non_overlapping_fixed_blocks
  cases hc : checkOverlaps (List.insertionSort blockLe blocks) with
  | some f => simp [hc]
  | none => simp [hc]

theorem build_error_iff_sorted (req : DayScheduleRequest) (e : String × String) :
    build_day_timeline req = .error e ↔
      sorted_non_overlapping_fixed_blocks req.fixed_blocks = .error e := by
  unfold build_day_timeline
  cases h : sorted_non_overlapping_fixed_blocks req.fixed_blocks with
  | error f => simp
  | ok fb => simp

/-! ### Buffered intervals, merging, and gap computation -/

@[simp] theorem Interval.start_mk (a b : Int) : (Interval.mk a b).start = a := rfl

@[simp] theorem Interval.end_mk (a b : Int) : (Interval.mk a b).«end» = b := rfl

theorem bufferInterval_spec (tb : Int) (b : FixedBlock) (hb : b.Valid) (htb : 0 ≤ tb) :
    0 ≤ (bufferInterval tb b).start ∧
      (bufferInterval tb b).start < (bufferInterval tb b).«end» ∧
      (bufferInterval tb b).«end» ≤ MINUTES_PER_DAY ∧
      (bufferInterval tb b).start ≤ b.start_minute ∧
      b.end_minute ≤ (bufferInterval tb b).«end» := by
  obtain ⟨h0, h1, h2, h3, h4⟩ := hb
  unfold bufferInterval
  simp only [Interval.start_mk, Interval.end_mk, MINUTES_PER_DAY] at *
  omega

theorem mergeLoop_cons (last current : Interval) (rest : List Interval) :
    mergeLoop last (current :: rest) =
      if current.start ≤ last.«end» then
        mergeLoop ⟨last.start, max last.«end» current.«end»⟩ rest
      else last :: mergeLoop current rest := rfl

theorem mergeLoop_chain : ∀ (l : List Interval) (last : Interval) (c : Int),
    c ≤ last.start → last.start < last.«end» → last.«end» ≤ MINUTES_PER_DAY →
    (∀ x ∈ l, last.start ≤ x.start) →
    List.Pairwise (fun a b => a.start ≤ b.start) l →
    (∀ x ∈ l, x.start < x.«end» ∧ x.«end» ≤ MINUTES_PER_DAY) →
    IChain c (mergeLoop last l) := by
  intro l
  induction l with
  | nil => intro last c h1 h2 h3 _ _ _; exact ⟨h1, h2, h3⟩
  | cons current rest ih =>
    intro last c h1 h2 h3 h4 h5 h6
    have hc6 := h6 current (List.mem_cons_self _ _)
    have hpw := List.pairwise_cons.mp h5
    rw [mergeLoop_cons]
    rcases le_or_lt current.start last.«end» with h | h
    · rw [if_pos h]
      apply ih ⟨last.start, max last.«end» current.«end»⟩ c
      · simpa using h1
      · simp only [Interval.start_mk, Interval.end_mk]; omega
      · simp only [Interval.end_mk]; omega
      · intro x hx
        simpa using h4 x (List.mem_cons.mpr (Or.inr hx))
      · exact hpw.2
      · intro x hx; exact h6 x (List.mem_cons.mpr (Or.inr hx))
    · rw [if_neg (not_le.mpr h)]
      refine ⟨h1, h2, ?_⟩
      exact ih current last.«end» (le_of_lt h) hc6.1 hc6.2 hpw.1 hpw.2
        (fun x hx => h6 x (List.mem_cons.mpr (Or.inr hx)))

theorem mergeLoop_cover : ∀ (l : List Interval) (last : Interval),
    (∀ x ∈ l, last.start ≤ x.start) →
    List.Pairwise (fun a b => a.start ≤ b.start) l →
    ∀ i ∈ last :: l, ∃ r ∈ mergeLoop last l, r.start ≤ i.start ∧ i.«end» ≤ r.«end» := by
  intro l
  induction l with
  | nil =>
    intro last _ _ i hi
    rcases List.mem_cons.mp hi with rfl | hi'
    · exact ⟨i, List.mem_cons_self _ _, le_refl _, le_refl _⟩
    · cases hi'
  | cons current rest ih =>
    intro last h4 h5 i hi
    have hpw := List.pairwise_cons.mp h5
    rw [mergeLoop_cons]
    rcases le_or_lt current.start last.«end» with h | h
    · rw [if_pos h]
      have hcov := ih ⟨last.start, max last.«end» current.«end»⟩
        (by intro x hx; simpa using h4 x (List.mem_cons.mpr (Or.inr hx))) hpw.2
      rcases List.mem_cons.mp hi with rfl | hi'
      · obtain ⟨r, hr, hr1, hr2⟩ := hcov _ (List.mem_cons_self _ _)
        simp only [Interval.start_mk, Interval.end_mk] at hr1 hr2
        exact ⟨r, hr, hr1, by omega⟩
      · rcases List.mem_cons.mp hi' with rfl | hi2
        · obtain ⟨r, hr, hr1, hr2⟩ := hcov _ (List.mem_cons_self _ _)
          simp only [Interval.start_mk, Interval.end_mk] at hr1 hr2
          have := h4 i (List.mem_cons_self _ _)
          exact ⟨r, hr, by omega, by omega⟩
        · exact hcov i (List.mem_cons.mpr (Or.inr hi2))
    · rw [if_neg (not_le.mpr h)]
      rcases List.mem_cons.mp hi with rfl | hi'
      · exact ⟨i, List.mem_cons_self _ _, le_refl _, le_refl _⟩
      · obtain ⟨r, hr, hr1, hr2⟩ := ih current hpw.1 hpw.2 i hi'
        exact ⟨r, List.mem_cons.mpr (Or.inr hr), hr1, hr2⟩

theorem gapsLoop_nil (c : Int) :
    gapsLoop c [] =
      if c < MINUTES_PER_DAY then [Interval.mk c MINUTES_PER_DAY] else [] := rfl

theorem gapsLoop_cons (c : Int) (r : Interval) (rest : List Interval) :
    gapsLoop c (r :: rest) =
      (if c < r.start then [Interval.mk c r.start] else []) ++
        gapsLoop (max c r.«end») rest := rfl

theorem gapsLoop_ichain : ∀ (l : List Interval) (c : Int), IChain c l →
    IChain c (gapsLoop c l) := by
  intro l
  induction l with
  | nil =>
    intro c hc
    rw [gapsLoop_nil]
    rcases lt_or_le c MINUTES_PER_DAY with h | h
    · rw [if_pos h]
      exact ⟨by simp, by simpa using h, le_refl _⟩
    · rw [if_neg (not_lt.mpr h)]
      exact hc
  | cons r rest ih =>
    intro c hc
    obtain ⟨h1, h2, h3⟩ := hc
    rw [gapsLoop_cons]
    have hmax : max c r.«end» = r.«end» := by omega
    rw [hmax]
    rcases lt_or_le c r.start with h | h
    · rw [if_pos h]
      refine ⟨by simp, by simpa using h, ?_⟩
      exact ichain_weaken (le_of_lt h2) (ih r.«end» h3)
    · rw [if_neg (not_lt.mpr h)]
      rw [List.nil_append]
      exact ichain_weaken (by omega) (ih r.«end» h3)

theorem gapsLoop_disj : ∀ (l : List Interval) (c : Int), IChain c l →
    ∀ g ∈ gapsLoop c l, ∀ r ∈ l, DisjI g r := by
  intro l
  induction l with
  | nil => intro c _ g _ r hr; cases hr
  | cons r0 rest ih =>
    intro c hc g hg r hr
    obtain ⟨h1, h2, h3⟩ := hc
    rw [gapsLoop_cons] at hg
    have hmax : max c r0.«end» = r0.«end» := by omega
    rw [hmax] at hg
    rcases List.mem_append.mp hg with hg1 | hg2
    · have hclt : c < r0.start := by
        by_contra hno
        rw [if_neg hno] at hg1; cases hg1
      rw [if_pos hclt] at hg1
      have hge : g = ⟨c, r0.start⟩ := by simpa using hg1
      subst hge
      rcases List.mem_cons.mp hr with rfl | hr'
      · exact Or.inl (by simp)
      · have hrr := ichain_mem rest r0.«end» h3 r hr'
        exact Or.inl (by simp only [Interval.end_mk]; omega)
    · rcases List.mem_cons.mp hr with rfl | hr'
      · have hich := gapsLoop_ichain rest r.«end» h3
        have hgg := ichain_mem _ r.«end» hich g hg2
        exact Or.inr (by omega)
      · exact ih r0.«end» h3 g hg2 r hr'

theorem intervalLe_start {a b : Interval} (h : intervalLe a b) : a.start ≤ b.start := by
  unfold intervalLe at h; omega

/-- The gaps computed by `_available_gaps` form an increasing chain of
non-degenerate intervals inside the day, each disjoint from every buffered
fixed-block interval. -/
theorem available_gaps_spec (blocks : List FixedBlock) (tb : Int)
    (hv : ∀ b ∈ blocks, b.Valid) (htb : 0 ≤ tb) :
    IChain 0 (available_gaps blocks tb) ∧
      ∀ g ∈ available_gaps blocks tb, ∀ b ∈ blocks,
        DisjI g (bufferInterval tb b) := by
  unfold available_gaps
  cases blocks with
  | nil =>
    simp only [List.isEmpty_nil, if_pos]
    constructor
    · exact ⟨by simp, by simp [MINUTES_PER_DAY], le_refl _⟩
    · intro g _ b hb; cases hb
  | cons b0 bs =>
    rw [if_neg (by simp)]
    have hvb : ∀ x ∈ (b0 :: bs).map (bufferInterval tb),
        0 ≤ x.start ∧ x.start < x.«end» ∧ x.«end» ≤ MINUTES_PER_DAY := by
      intro x hx
      obtain ⟨b, hb, rfl⟩ := List.mem_map.mp hx
      have := bufferInterval_spec tb b (hv b hb) htb
      exact ⟨this.1, this.2.1, this.2.2.1⟩
    cases hs : List.insertionSort intervalLe ((b0 :: bs).map (bufferInterval tb)) with
    | nil =>
      exfalso
      have := List.perm_insertionSort intervalLe ((b0 :: bs).map (bufferInterval tb))
      rw [hs] at this
      exact absurd this.symm (by simp)
    | cons first rest =>
      have hsorted : List.Pairwise intervalLe (first :: rest) := by
        rw [← hs]
        exact List.sorted_insertionSort intervalLe _
      have hpw := List.pairwise_cons.mp hsorted
      have hmem : ∀ x ∈ first :: rest, x ∈ (b0 :: bs).map (bufferInterval tb) := by
        intro x hx
        rw [← hs] at hx
        exact (List.mem_insertionSort intervalLe).mp hx
      have hmem' : ∀ x ∈ (b0 :: bs).map (bufferInterval tb), x ∈ first :: rest := by
        intro x hx
        rw [← hs]
        exact (List.mem_insertionSort intervalLe).mpr hx
      have hfirst := hvb first (hmem first (List.mem_cons_self _ _))
      have hrest : ∀ x ∈ rest, x.start < x.«end» ∧ x.«end» ≤ MINUTES_PER_DAY := by
        intro x hx
        have := hvb x (hmem x (List.mem_cons.mpr (Or.inr hx)))
        exact ⟨this.2.1, this.2.2⟩
      have hhead : ∀ x ∈ rest, first.start ≤ x.start :=
        fun x hx => intervalLe_start (hpw.1 x hx)
      have hpws : List.Pairwise (fun a b => a.start ≤ b.start) rest :=
        hpw.2.imp (fun h => intervalLe_start h)
      have hmerged : merge_intervals ((b0 :: bs).map (bufferInterval tb)) =
          mergeLoop first rest := by
        unfold merge_intervals
        rw [hs]
      rw [hmerged]
      have hchain : IChain 0 (mergeLoop first rest) :=
        mergeLoop_chain rest first 0 hfirst.1 hfirst.2.1 hfirst.2.2 hhead hpws hrest
      refine ⟨gapsLoop_ichain _ 0 hchain, ?_⟩
      intro g hg b hb
      have hbuf : bufferInterval tb b ∈ first :: rest :=
        hmem' _ (List.mem_map.mpr ⟨b, hb, rfl⟩)
      obtain ⟨r, hr, hr1, hr2⟩ := mergeLoop_cover rest first hhead hpws _ hbuf
      have hdisj := gapsLoop_disj _ 0 hchain g hg r hr
      exact DisjI.mono hr1 hr2 hdisj

/-! ### The greedy assignment loop -/

theorem DisjI.mono_left {g a x : Interval} (hs : g.start ≤ a.start)
    (he : a.«end» ≤ g.«end») (h : DisjI g x) : DisjI a x :=
  (DisjI.mono hs he h.symm).symm

@[simp] theorem ScheduledTask.interval_mk (i t c : String) (p s e : Int) :
    (ScheduledTask.mk i t c p s e).interval = ⟨s, e⟩ := rfl

@[simp] theorem sched_interval_start (s : ScheduledTask) :
    s.interval.start = s.start_minute := rfl

@[simp] theorem sched_interval_endm (s : ScheduledTask) :
    s.interval.«end» = s.end_minute := rfl

@[simp] theorem block_interval_start (b : FixedBlock) :
    b.interval.start = b.start_minute := rfl

@[simp] theorem block_interval_endm (b : FixedBlock) :
    b.interval.«end» = b.end_minute := rfl

theorem pairwise_eraseIdx_rel {α : Type} {R : α → α → Prop}
    (hsym : ∀ x y, R x y → R y x) :
    ∀ (l : List α) (i : Nat) (a : α), List.Pairwise R l → l[i]? = some a →
      ∀ b ∈ l.eraseIdx i, R a b := by
  intro l
  induction l with
  | nil => intro i a _ ha; simp at ha
  | cons x xs ih =>
    intro i a hpw ha b hb
    have hpw' := List.pairwise_cons.mp hpw
    cases i with
    | zero =>
      have hax : a = x := by simpa using ha.symm
      subst hax
      rw [List.eraseIdx_cons_zero] at hb
      exact hpw'.1 b hb
    | succ j =>
      rw [List.getElem?_cons_succ] at ha
      rw [List.eraseIdx_cons_succ] at hb
      rcases List.mem_cons.mp hb with rfl | hb'
      · have hain : a ∈ xs := by
          obtain ⟨hlt, rfl⟩ := List.getElem?_eq_some.mp ha
          exact List.getElem_mem hlt
        exact hsym _ _ (hpw'.1 a hain)
      · exact ih j a hpw'.2 ha b hb'

/-- Unfolding of `assignStep` when no gap fits: the task is appended,
unchanged, to `unscheduled_tasks` and nothing else changes. -/
theorem assignStep_none (st : AssignState) (task : FlexibleTask)
    (h : largest_fitting_gap_index st.available_gaps task.duration_minutes = none) :
    assignStep st task =
      { st with unscheduled_tasks := st.unscheduled_tasks ++ [task] } := by
  unfold assignStep
  rw [h]

/-- Unfolding of `assignStep` when gap `g` at index `i` is selected: the gap is
popped, the task is bound to `[g.start, g.start + duration)`, and the leftover
`[g.start + duration, g.end)` is pushed back exactly when it is nonempty. -/
theorem assignStep_some (st : AssignState) (task : FlexibleTask) (i : Nat)
    (g : Interval)
    (h : largest_fitting_gap_index st.available_gaps task.duration_minutes = some i)
    (hg : st.available_gaps[i]? = some g) :
    assignStep st task =
      { available_gaps :=
          if g.start + task.duration_minutes < g.«end» then
            st.available_gaps.eraseIdx i ++
              [⟨g.start + task.duration_minutes, g.«end»⟩]
          else st.available_gaps.eraseIdx i,
        scheduled_tasks := st.scheduled_tasks ++
          [{ id := task.id, title := task.title, category := task.category,
             priority := task.priority, start_minute := g.start,
             end_minute := g.start + task.duration_minutes }],
        unscheduled_tasks := st.unscheduled_tasks } := by
  unfold assignStep
  rw [h]
  simp only [hg, Option.getD_some]

/-- The loop invariant of the greedy assigner: every pool gap and every
scheduled task is a non-degenerate interval inside the day, all of them are
mutually disjoint, and each is disjoint from every buffered fixed block. -/
structure PoolInv (tb : Int) (blocks : List FixedBlock) (st : AssignState) : Prop where
  gaps_in_day : ∀ g ∈ st.available_gaps, InDay g
  sch_in_day : ∀ s ∈ st.scheduled_tasks, InDay s.interval
  gaps_disj : List.Pairwise DisjI st.available_gaps
  sch_disj : List.Pairwise (fun a b => DisjI a.interval b.interval) st.scheduled_tasks
  gaps_sch : ∀ g ∈ st.available_gaps, ∀ s ∈ st.scheduled_tasks, DisjI g s.interval
  gaps_buf : ∀ g ∈ st.available_gaps, ∀ b ∈ blocks, DisjI g (bufferInterval tb b)
  sch_buf : ∀ s ∈ st.scheduled_tasks, ∀ b ∈ blocks,
    DisjI s.interval (bufferInterval tb b)

theorem assignStep_inv (tb : Int) (blocks : List FixedBlock) (st : AssignState)
    (task : FlexibleTask) (hinv : PoolInv tb blocks st)
    (hd : 0 < task.duration_minutes) : PoolInv tb blocks (assignStep st task) := by
  cases h : largest_fitting_gap_index st.available_gaps task.duration_minutes with
  | none =>
    rw [assignStep_none st task h]
    exact ⟨hinv.gaps_in_day, hinv.sch_in_day, hinv.gaps_disj, hinv.sch_disj,
      hinv.gaps_sch, hinv.gaps_buf, hinv.sch_buf⟩
  | some i =>
    obtain ⟨g, hg, hfit, _, _⟩ := largest_fitting_gap_index_spec _ _ i h
    rw [assignStep_some st task i g h hg]
    have hgmem : g ∈ st.available_gaps := by
      obtain ⟨hlt, rfl⟩ := List.getElem?_eq_some.mp hg
      exact List.getElem_mem hlt
    have hgday := hinv.gaps_in_day g hgmem
    obtain ⟨hg0, hg1, hg2⟩ := hgday
    have hdur : task.duration_minutes ≤ g.«end» - g.start := by
      unfold Interval.duration at hfit; omega
    have herase_sub : ∀ x ∈ st.available_gaps.eraseIdx i, x ∈ st.available_gaps :=
      fun x hx => (List.eraseIdx_sublist st.available_gaps i).subset hx
    have herase_disj : ∀ x ∈ st.available_gaps.eraseIdx i, DisjI g x :=
      pairwise_eraseIdx_rel (fun _ _ hab => hab.symm) st.available_gaps i g
        hinv.gaps_disj hg
    have herase_pw : List.Pairwise DisjI (st.available_gaps.eraseIdx i) :=
      hinv.gaps_disj.sublist (List.eraseIdx_sublist st.available_gaps i)
    refine ⟨?_, ?_, ?_, ?_, ?_, ?_, ?_⟩
    · -- gaps in day
      intro x hx
      split at hx
      · rcases List.mem_append.mp hx with hx1 | hx2
        · exact hinv.gaps_in_day x (herase_sub x hx1)
        · have : x = ⟨g.start + task.duration_minutes, g.«end»⟩ := by simpa using hx2
          subst this
          exact ⟨by simp; omega, by simp; omega, by simpa using hg2⟩
      · exact hinv.gaps_in_day x (herase_sub x hx)
    · -- scheduled in day
      intro s hs
      rcases List.mem_append.mp hs with hs1 | hs2
      · exact hinv.sch_in_day s hs1
      · have : s = ⟨task.id, task.title, task.category, task.priority, g.start,
            g.start + task.duration_minutes⟩ := by simpa using hs2
        subst this
        exact ⟨by simpa using hg0, by simp; omega, by simp; omega⟩
    · -- gaps pairwise disjoint
      split
      · refine List.pairwise_append.mpr ⟨herase_pw, List.pairwise_singleton _ _, ?_⟩
        intro x hx y hy
        have : y = ⟨g.start + task.duration_minutes, g.«end»⟩ := by simpa using hy
        subst this
        exact DisjI.mono (by simp; omega) (by simp) (herase_disj x hx).symm
      · exact herase_pw
    · -- scheduled pairwise disjoint
      refine List.pairwise_append.mpr
        ⟨hinv.sch_disj, List.pairwise_singleton _ _, ?_⟩
      intro s hs y hy
      have : y = ⟨task.id, task.title, task.category, task.priority, g.start,
          g.start + task.duration_minutes⟩ := by simpa using hy
      subst this
      have := (hinv.gaps_sch g hgmem s hs).symm
      exact DisjI.mono (by simp) (by simp; omega) this
    · -- gaps disjoint from scheduled
      intro x hx s hs
      have hsplit : (∀ s' ∈ st.scheduled_tasks, DisjI x s'.interval) →
          DisjI x ((⟨task.id, task.title, task.category, task.priority, g.start,
            g.start + task.duration_minutes⟩ : ScheduledTask)).interval →
          DisjI x s.interval := by
        intro hold hnew
        rcases List.mem_append.mp hs with hs1 | hs2
        · exact hold s hs1
        · have : s = ⟨task.id, task.title, task.category, task.priority, g.start,
              g.start + task.duration_minutes⟩ := by simpa using hs2
          subst this
          exact hnew
      split at hx
      · rcases List.mem_append.mp hx with hx1 | hx2
        · refine hsplit (fun s' hs' => hinv.gaps_sch x (herase_sub x hx1) s' hs') ?_
          exact DisjI.mono (by simp) (by simp; omega) (herase_disj x hx1).symm
        · have : x = ⟨g.start + task.duration_minutes, g.«end»⟩ := by simpa using hx2
          subst this
          refine hsplit ?_ ?_
          · intro s' hs'
            have := (hinv.gaps_sch g hgmem s' hs').symm
            exact (DisjI.mono (by simp; omega) (by simp) this).symm
          · exact Or.inr (by simp)
      · refine hsplit (fun s' hs' => hinv.gaps_sch x (herase_sub x hx) s' hs') ?_
        exact DisjI.mono (by simp) (by simp; omega) (herase_disj x hx).symm
    · -- gaps disjoint from buffered blocks
      intro x hx b hb
      split at hx
      · rcases List.mem_append.mp hx with hx1 | hx2
        · exact hinv.gaps_buf x (herase_sub x hx1) b hb
        · have : x = ⟨g.start + task.duration_minutes, g.«end»⟩ := by simpa using hx2
          subst this
          exact DisjI.mono_left (by simp; omega) (by simp) (hinv.gaps_buf g hgmem b hb)
      · exact hinv.gaps_buf x (herase_sub x hx) b hb
    · -- scheduled disjoint from buffered blocks
      intro s hs b hb
      rcases List.mem_append.mp hs with hs1 | hs2
      · exact hinv.sch_buf s hs1 b hb
      · have : s = ⟨task.id, task.title, task.category, task.priority, g.start,
            g.start + task.duration_minutes⟩ := by simpa using hs2
        subst this
        exact DisjI.mono_left (by simp) (by simp; omega) (hinv.gaps_buf g hgmem b hb)

theorem assignLoop_inv : ∀ (tasks : List FlexibleTask) (st : AssignState)
    (tb : Int) (blocks : List FixedBlock), PoolInv tb blocks st →
    (∀ t ∈ tasks, 0 < t.duration_minutes) →
    PoolInv tb blocks (assignLoop st tasks) := by
  intro tasks
  induction tasks with
  | nil => intro st tb blocks hinv _; exact hinv
  | cons t ts ih =>
    intro st tb blocks hinv htasks
    exact ih (assignStep st t) tb blocks
      (assignStep_inv tb blocks st t hinv (htasks t (List.mem_cons_self _ _)))
      (fun x hx => htasks x (List.mem_cons.mpr (Or.inr hx)))

theorem assignStates_inv : ∀ (tasks : List FlexibleTask) (st : AssignState)
    (tb : Int) (blocks : List FixedBlock), PoolInv tb blocks st →
    (∀ t ∈ tasks, 0 < t.duration_minutes) →
    ∀ st' ∈ assignStates st tasks, PoolInv tb blocks st' := by
  intro tasks
  induction tasks with
  | nil =>
    intro st tb blocks hinv _ st' hst'
    have : st' = st := by simpa [assignStates] using hst'
    subst this; exact hinv
  | cons t ts ih =>
    intro st tb blocks hinv htasks st' hst'
    rcases List.mem_cons.mp hst' with rfl | hst2
    · exact hinv
    · exact ih (assignStep st t) tb blocks
        (assignStep_inv tb blocks st t hinv (htasks t (List.mem_cons_self _ _)))
        (fun x hx => htasks x (List.mem_cons.mpr (Or.inr hx))) st' hst2

/-- Every task the loop ever schedules carries the identity fields and exact
duration of one of the processed flexible tasks. -/
theorem assignLoop_origin : ∀ (tasks : List FlexibleTask) (st : AssignState),
    ∀ s ∈ (assignLoop st tasks).scheduled_tasks,
      s ∈ st.scheduled_tasks ∨
        ∃ t ∈ tasks, s.id = t.id ∧ s.title = t.title ∧ s.category = t.category ∧
          s.priority = t.priority ∧
          s.end_minute - s.start_minute = t.duration_minutes := by
  intro tasks
  induction tasks with
  | nil => intro st s hs; exact Or.inl hs
  | cons t ts ih =>
    intro st s hs
    rcases ih (assignStep st t) s hs with hmem | ⟨t', ht', hfields⟩
    · cases h : largest_fitting_gap_index st.available_gaps t.duration_minutes with
      | none =>
        rw [assignStep_none st t h] at hmem
        exact Or.inl hmem
      | some i =>
        obtain ⟨g, hg, _, _, _⟩ := largest_fitting_gap_index_spec _ _ i h
        rw [assignStep_some st t i g h hg] at hmem
        rcases List.mem_append.mp hmem with hm1 | hm2
        · exact Or.inl hm1
        · have : s = ⟨t.id, t.title, t.category, t.priority, g.start,
              g.start + t.duration_minutes⟩ := by simpa using hm2
          subst this
          exact Or.inr ⟨t, List.mem_cons_self _ _, rfl, rfl, rfl, rfl, by simp⟩
    · exact Or.inr ⟨t', List.mem_cons.mpr (Or.inr ht'), hfields⟩

theorem perm_middle_snoc {α : Type} (a b c : List α) (x : α) :
    (((a ++ [x]) ++ b) ++ c).Perm ((a ++ b) ++ (x :: c)) := by
  have e1 : ((a ++ [x]) ++ b) ++ c = a ++ (([x] ++ b) ++ c) := by
    simp [List.append_assoc]
  have e2 : (a ++ b) ++ (x :: c) = a ++ ((b ++ [x]) ++ c) := by
    simp [List.append_assoc]
  rw [e1, e2]
  exact List.Perm.append_left a (List.Perm.append_right c List.perm_append_comm)

/-- The ids of the scheduled and unscheduled tasks the loop produces are, as a
multiset, the loop's starting ids plus the ids of the processed tasks. -/
theorem assignLoop_ids : ∀ (tasks : List FlexibleTask) (st : AssignState),
    ((assignLoop st tasks).scheduled_tasks.map ScheduledTask.id ++
      (assignLoop st tasks).unscheduled_tasks.map FlexibleTask.id).Perm
      ((st.scheduled_tasks.map ScheduledTask.id ++
        st.unscheduled_tasks.map FlexibleTask.id) ++
        tasks.map FlexibleTask.id) := by
  intro tasks
  induction tasks with
  | nil => intro st; simp [assignLoop]
  | cons t ts ih =>
    intro st
    refine (ih (assignStep st t)).trans ?_
    cases h : largest_fitting_gap_index st.available_gaps t.duration_minutes with
    | none =>
      rw [assignStep_none st t h]
      simp [List.append_assoc]
    | some i =>
      obtain ⟨g, hg, _, _, _⟩ := largest_fitting_gap_index_spec _ _ i h
      rw [assignStep_some st t i g h hg]
      simp only [List.map_append, List.map_cons, List.map_nil]
      exact perm_middle_snoc _ _ _ t.id

/-! ### Timeline composition -/

@[simp] theorem freeSlot_start (s e : Int) : (freeSlot s e).start_minute = s := rfl

@[simp] theorem freeSlot_endm (s e : Int) : (freeSlot s e).end_minute = e := rfl

@[simp] theorem freeSlot_type (s e : Int) : (freeSlot s e).slot_type = SlotType.free := rfl

@[simp] theorem slot_interval_start (s : TimelineSlot) :
    s.interval.start = s.start_minute := rfl

@[simp] theorem slot_interval_endm (s : TimelineSlot) :
    s.interval.«end» = s.end_minute := rfl

@[simp] theorem fixedSlot_start (b : FixedBlock) :
    (fixedSlot b).start_minute = b.start_minute := rfl

@[simp] theorem fixedSlot_endm (b : FixedBlock) :
    (fixedSlot b).end_minute = b.end_minute := rfl

@[simp] theorem taskSlot_start (s : ScheduledTask) :
    (taskSlot s).start_minute = s.start_minute := rfl

@[simp] theorem taskSlot_endm (s : ScheduledTask) :
    (taskSlot s).end_minute = s.end_minute := rfl

theorem composeLoop_nil (c : Int) :
    composeLoop c [] =
      if c < MINUTES_PER_DAY then [freeSlot c MINUTES_PER_DAY] else [] := rfl

theorem composeLoop_cons (c : Int) (slot : TimelineSlot) (rest : List TimelineSlot) :
    composeLoop c (slot :: rest) =
      (if c < slot.start_minute then [freeSlot c slot.start_minute] else []) ++
        (slot :: composeLoop (max c slot.end_minute) rest) := rfl

/-- The cursor walk of `_compose_timeline` turns any chain of occupied slots
into an exact tiling of the day from the starting cursor. -/
theorem composeLoop_chain : ∀ (l : List TimelineSlot) (c : Int), OccChain c l →
    SlotChainFrom c (composeLoop c l) := by
  intro l
  induction l with
  | nil =>
    intro c hc
    rw [composeLoop_nil]
    rcases lt_or_le c MINUTES_PER_DAY with h | h
    · rw [if_pos h]
      exact ⟨by simp, by simpa using h, rfl⟩
    · rw [if_neg (not_lt.mpr h)]
      exact le_antisymm hc h
  | cons s rest ih =>
    intro c hc
    obtain ⟨h1, h2, h3⟩ := hc
    rw [composeLoop_cons]
    have hmax : max c s.end_minute = s.end_minute := by omega
    rw [hmax]
    rcases lt_or_le c s.start_minute with h | h
    · rw [if_pos h]
      refine ⟨by simp, by simpa using h, ?_⟩
      exact ⟨by simp, h2, ih s.end_minute h3⟩
    · rw [if_neg (not_lt.mpr h), List.nil_append]
      exact ⟨by omega, h2, ih s.end_minute h3⟩

theorem slotLe_start {a b : TimelineSlot} (h : slotLe a b) :
    a.start_minute ≤ b.start_minute := by
  unfold slotLe at h; omega

/-- A `(start, end)`-sorted list of pairwise disjoint, bounded occupied slots
is a chain. -/
theorem occ_of_sorted_disjoint : ∀ (l : List TimelineSlot) (c : Int),
    List.Pairwise slotLe l →
    List.Pairwise (fun a b => DisjI a.interval b.interval) l →
    (∀ s ∈ l, 0 ≤ s.start_minute ∧ s.start_minute < s.end_minute ∧
      s.end_minute ≤ MINUTES_PER_DAY) →
    (match l with | [] => c ≤ MINUTES_PER_DAY | s :: _ => c ≤ s.start_minute) →
    OccChain c l := by
  intro l
  induction l with
  | nil => intro c _ _ _ h; exact h
  | cons s rest ih =>
    intro c hsort hdisj hb hcm
    have hs := hb s (List.mem_cons_self _ _)
    have hsort' := List.pairwise_cons.mp hsort
    have hdisj' := List.pairwise_cons.mp hdisj
    refine ⟨hcm, hs.2.1, ?_⟩
    refine ih s.end_minute hsort'.2 hdisj'.2
      (fun x hx => hb x (List.mem_cons.mpr (Or.inr hx))) ?_
    cases rest with
    | nil => exact hs.2.2
    | cons r rest' =>
      have hle := slotLe_start (hsort'.1 r (List.mem_cons_self _ _))
      have hd := hdisj'.1 r (List.mem_cons_self _ _)
      have hrb := hb r (List.mem_cons.mpr (Or.inr (List.mem_cons_self _ _)))
      rcases hd with h | h
      · simpa using h
      · simp only [slot_interval_start, slot_interval_endm] at h
        omega

theorem composeLoop_countP (p : TimelineSlot → Bool)
    (hfree : ∀ s e : Int, p (freeSlot s e) = false) :
    ∀ (l : List TimelineSlot) (c : Int),
      (composeLoop c l).countP p = l.countP p := by
  intro l
  induction l with
  | nil =>
    intro c
    rw [composeLoop_nil]
    split
    · simp [List.countP_cons, hfree]
    · simp
  | cons s rest ih =>
    intro c
    rw [composeLoop_cons, List.countP_append]
    split
    · simp [List.countP_cons, hfree, ih]
    · simp [List.countP_cons, ih]

/-! ### End-to-end assembly -/

/-- The state of the assignment loop after all prioritized tasks have been
processed, for a request whose validator produced the sorted blocks `fb`. -/
def finalAssign (req : DayScheduleRequest) (fb : List FixedBlock) : AssignState :=
  assignLoop ⟨available_gaps fb req.transition_buffer_minutes, [], []⟩
    (List.insertionSort taskLe req.flexible_tasks)

theorem build_ok_inv (req : DayScheduleRequest) (resp : TimelineResponse)
    (h : build_day_timeline req = .ok resp) :
    ∃ fb, sorted_non_overlapping_fixed_blocks req.fixed_blocks = .ok fb ∧
      resp = { day_start_minute := 0, day_end_minute := MINUTES_PER_DAY,
               transition_buffer_minutes := req.transition_buffer_minutes,
               timeline := compose_timeline fb (finalAssign req fb).scheduled_tasks,
               scheduled_tasks :=
                 List.insertionSort schedLe (finalAssign req fb).scheduled_tasks,
               unscheduled_tasks := (finalAssign req fb).unscheduled_tasks } := by
  unfold build_day_timeline at h
  cases hs : sorted_non_overlapping_fixed_blocks req.fixed_blocks with
  | error e => rw [hs] at h; exact absurd h (by simp)
  | ok fb =>
    rw [hs] at h
    injection h with h2
    exact ⟨fb, rfl, h2.symm⟩

/-- The initial pool of the assignment loop satisfies the invariant. -/
theorem initState_inv (req : DayScheduleRequest) (fb : List FixedBlock)
    (hv : req.Valid)
    (hfb : sorted_non_overlapping_fixed_blocks req.fixed_blocks = .ok fb) :
    PoolInv req.transition_buffer_minutes fb
      ⟨available_gaps fb req.transition_buffer_minutes, [], []⟩ := by
  obtain ⟨hvb, hvt, htb0, htb1⟩ := hv
  have hfbv : ∀ b ∈ fb, b.Valid := by
    intro b hb
    rw [(sorted_ok_spec _ _ hfb).1] at hb
    exact hvb b ((List.mem_insertionSort blockLe).mp hb)
  obtain ⟨hich, hbuf⟩ := available_gaps_spec fb req.transition_buffer_minutes hfbv htb0
  refine ⟨?_, ?_, ?_, ?_, ?_, ?_, ?_⟩
  · intro g hg
    have := ichain_mem _ 0 hich g hg
    exact ⟨this.1, this.2⟩
  · intro s hs; cases hs
  · exact ichain_pairwise _ 0 hich
  · exact List.Pairwise.nil
  · intro g _ s hs; cases hs
  · exact hbuf
  · intro s hs; cases hs

/--
The master lemma about a successful run: the sorted fixed blocks form a chain,
the final assignment state satisfies the pool invariant, and the composed
timeline exactly tiles the day.
-/
theorem build_ok_main (req : DayScheduleRequest) (fb : List FixedBlock)
    (hv : req.Valid)
    (hfb : sorted_non_overlapping_fixed_blocks req.fixed_blocks = .ok fb) :
    BChain 0 fb ∧
      PoolInv req.transition_buffer_minutes fb (finalAssign req fb) ∧
      SlotChainFrom 0 (compose_timeline fb (finalAssign req fb).scheduled_tasks) := by
  obtain ⟨hvb, hvt, htb0, htb1⟩ := hv
  have hfbv : ∀ b ∈ fb, b.Valid := by
    intro b hb
    rw [(sorted_ok_spec _ _ hfb).1] at hb
    exact hvb b ((List.mem_insertionSort blockLe).mp hb)
  have hbchain : BChain 0 fb := sorted_ok_bchain _ _ hvb hfb
  have hinv : PoolInv req.transition_buffer_minutes fb (finalAssign req fb) := by
    apply assignLoop_inv
    · exact initState_inv req fb ⟨hvb, hvt, htb0, htb1⟩ hfb
    · intro t ht
      exact (hvt t ((List.mem_insertionSort taskLe).mp ht)).1
  refine ⟨hbchain, hinv, ?_⟩
  -- the occupied slots
  have hocc_bounds : ∀ s ∈ fb.map fixedSlot ++
      (finalAssign req fb).scheduled_tasks.map taskSlot,
      0 ≤ s.start_minute ∧ s.start_minute < s.end_minute ∧
        s.end_minute ≤ MINUTES_PER_DAY := by
    intro s hs
    rcases List.mem_append.mp hs with hs1 | hs2
    · obtain ⟨b, hb, rfl⟩ := List.mem_map.mp hs1
      have := bchain_mem fb 0 hbchain b hb
      simpa using this
    · obtain ⟨t, ht, rfl⟩ := List.mem_map.mp hs2
      have := hinv.sch_in_day t ht
      obtain ⟨u1, u2, u3⟩ := this
      simp only [ScheduledTask.interval] at u1 u2 u3
      simpa using ⟨u1, u2, u3⟩
  have hocc_disj : List.Pairwise (fun a b => DisjI a.interval b.interval)
      (fb.map fixedSlot ++ (finalAssign req fb).scheduled_tasks.map taskSlot) := by
    refine List.pairwise_append.mpr ⟨?_, ?_, ?_⟩
    · apply List.pairwise_map.mpr
      exact (bchain_pairwise fb 0 hbchain).imp (fun h => Or.inl h)
    · apply List.pairwise_map.mpr
      exact hinv.sch_disj.imp (fun h => h)
    · intro x hx y hy
      obtain ⟨b, hb, rfl⟩ := List.mem_map.mp hx
      obtain ⟨t, ht, rfl⟩ := List.mem_map.mp hy
      have hsb := hinv.sch_buf t ht b hb
      have hbspec := bufferInterval_spec req.transition_buffer_minutes b
        (hfbv b hb) htb0
      exact (DisjI.mono hbspec.2.2.2.1 hbspec.2.2.2.2 hsb).symm
  have hsorted : List.Pairwise slotLe
      (List.insertionSort slotLe
        (fb.map fixedSlot ++ (finalAssign req fb).scheduled_tasks.map taskSlot)) :=
    List.sorted_insertionSort slotLe _
  have hperm := List.perm_insertionSort slotLe
    (fb.map fixedSlot ++ (finalAssign req fb).scheduled_tasks.map taskSlot)
  have hsdisj : List.Pairwise (fun a b => DisjI a.interval b.interval)
      (List.insertionSort slotLe
        (fb.map fixedSlot ++ (finalAssign req fb).scheduled_tasks.map taskSlot)) :=
    (hperm.pairwise_iff (fun {x y} hxy => hxy.symm)).mpr hocc_disj
  have hsbounds : ∀ s ∈ List.insertionSort slotLe
      (fb.map fixedSlot ++ (finalAssign req fb).scheduled_tasks.map taskSlot),
      0 ≤ s.start_minute ∧ s.start_minute < s.end_minute ∧
        s.end_minute ≤ MINUTES_PER_DAY :=
    fun s hs => hocc_bounds s ((List.mem_insertionSort slotLe).mp hs)
  have hocc : OccChain 0
      (List.insertionSort slotLe
        (fb.map fixedSlot ++ (finalAssign req fb).scheduled_tasks.map taskSlot)) := by
    apply occ_of_sorted_disjoint _ 0 hsorted hsdisj hsbounds
    cases hl : List.insertionSort slotLe
        (fb.map fixedSlot ++ (finalAssign req fb).scheduled_tasks.map taskSlot) with
    | nil => simp [MINUTES_PER_DAY]
    | cons s rest =>
      have : s ∈ List.insertionSort slotLe
          (fb.map fixedSlot ++ (finalAssign req fb).scheduled_tasks.map taskSlot) := by
        rw [hl]; exact List.mem_cons_self _ _
      exact (hsbounds s this).1
  exact composeLoop_chain _ 0 hocc

/-! ### Claim theorems -/

/-- C1: for every valid request accepted by `build_day_timeline`, the returned
timeline is an exact partition of the day `[0, 1440)`: the first slot starts at
0, each slot starts exactly where the previous one ends, the last slot ends at
1440 (this is `SlotChainFrom 0`), and consequently the slots are pairwise
non-overlapping. -/
theorem C1_partition (req : DayScheduleRequest) (resp : TimelineResponse)
    (hv : req.Valid) (hok : build_day_timeline req = .ok resp) :
    SlotChainFrom 0 resp.timeline ∧
      List.Pairwise (fun a b => a.end_minute ≤ b.start_minute) resp.timeline := by
  obtain ⟨fb, hfb, rfl⟩ := build_ok_inv req resp hok
  have h := (build_ok_main req fb hv hfb).2.2
  exact ⟨h, slotchain_pairwise _ 0 h⟩

/-- C4: `build_day_timeline` fails (raising the overlap error) exactly when,
after sorting the fixed blocks by `(start_minute, end_minute)`, some adjacent
pair satisfies `curr.start_minute < prev.end_minute`; the error names the ids
of such an adjacent conflicting pair, and on failure no response is returned.
Concretely, blocks A at 0-60 and B at 30-90 produce the error ("A", "B"). -/
theorem C4_overlap_error (req : DayScheduleRequest) :
    ((∃ e, build_day_timeline req = .error e) ↔
      ∃ (i : Nat) (p c : FixedBlock),
        (List.insertionSort blockLe req.fixed_blocks)[i]? = some p ∧
        (List.insertionSort blockLe req.fixed_blocks)[i + 1]? = some c ∧
        c.start_minute < p.end_minute) ∧
    (∀ a b : String, build_day_timeline req = .error (a, b) →
      (∀ resp : TimelineResponse, build_day_timeline req ≠ .ok resp) ∧
      ∃ (i : Nat) (p c : FixedBlock),
        (List.insertionSort blockLe req.fixed_blocks)[i]? = some p ∧
        (List.insertionSort blockLe req.fixed_blocks)[i + 1]? = some c ∧
        c.start_minute < p.end_minute ∧ p.id = a ∧ c.id = b) ∧
    build_day_timeline ⟨[⟨"A", "A", 0, 60⟩, ⟨"B", "B", 30, 90⟩], [], 15⟩ =
      .error ("A", "B") := by
  refine ⟨⟨?_, ?_⟩, ?_, ?_⟩
  · rintro ⟨⟨a, b⟩, he⟩
    have hs := (build_error_iff_sorted req (a, b)).mp he
    have hc := (sorted_error_iff req.fixed_blocks (a, b)).mp hs
    obtain ⟨i, p, c, hp, hcc, hov, _, _⟩ := checkOverlaps_some _ a b hc
    exact ⟨i, p, c, hp, hcc, hov⟩
  · rintro ⟨i, p, c, hp, hcc, hov⟩
    cases hchk : checkOverlaps (List.insertionSort blockLe req.fixed_blocks) with
    | none =>
      have := (checkOverlaps_none_iff _).mp hchk i p c hp hcc
      omega
    | some e =>
      exact ⟨e, (build_error_iff_sorted req e).mpr
        ((sorted_error_iff req.fixed_blocks e).mpr hchk)⟩
  · intro a b he
    constructor
    · intro resp hresp
      rw [he] at hresp
      exact Except.noConfusion hresp
    · have hs := (build_error_iff_sorted req (a, b)).mp he
      have hc := (sorted_error_iff req.fixed_blocks (a, b)).mp hs
      exact checkOverlaps_some _ a b hc
  · decide

/-- C5: in the response to a valid request, the scheduled tasks are pairwise
non-overlapping, and no scheduled task overlaps any fixed block. -/
theorem C5_disjointness (req : DayScheduleRequest) (resp : TimelineResponse)
    (hv : req.Valid) (hok : build_day_timeline req = .ok resp) :
    List.Pairwise (fun a b =>
      a.end_minute ≤ b.start_minute ∨ b.end_minute ≤ a.start_minute)
      resp.scheduled_tasks ∧
    ∀ s ∈ resp.scheduled_tasks, ∀ b ∈ req.fixed_blocks,
      s.end_minute ≤ b.start_minute ∨ b.end_minute ≤ s.start_minute := by
  obtain ⟨fb, hfb, rfl⟩ := build_ok_inv req resp hok
  obtain ⟨hbchain, hinv, _⟩ := build_ok_main req fb hv hfb
  obtain ⟨hvb, hvt, htb0, htb1⟩ := hv
  constructor
  · have hperm := List.perm_insertionSort schedLe (finalAssign req fb).scheduled_tasks
    exact (hperm.pairwise_iff
      (fun {x y} hxy => Or.elim hxy Or.inr Or.inl)).mpr hinv.sch_disj
  · intro s hs b hb
    have hs' : s ∈ (finalAssign req fb).scheduled_tasks :=
      (List.mem_insertionSort schedLe).mp hs
    have hb' : b ∈ fb := by
      rw [(sorted_ok_spec _ _ hfb).1]
      exact (List.mem_insertionSort blockLe).mpr hb
    have hbuf := hinv.sch_buf s hs' b hb'
    have hbspec := bufferInterval_spec req.transition_buffer_minutes b
      (hvb b hb) htb0
    have hd := @DisjI.mono (bufferInterval req.transition_buffer_minutes b)
      b.interval s.interval hbspec.2.2.2.1 hbspec.2.2.2.2 hbuf
    simpa [DisjI] using hd

/-- C9: in the response to a valid request with transition buffer `b`, every
scheduled task is disjoint even from the clipped buffered interval
`[max(0, start - b), min(1440, end + b))` around every fixed block — strictly
stronger than plain disjointness from the blocks. -/
theorem C9_buffered_disjointness (req : DayScheduleRequest)
    (resp : TimelineResponse) (hv : req.Valid)
    (hok : build_day_timeline req = .ok resp) :
    ∀ s ∈ resp.scheduled_tasks, ∀ b ∈ req.fixed_blocks,
      s.end_minute ≤ max 0 (b.start_minute - req.transition_buffer_minutes) ∨
      min MINUTES_PER_DAY (b.end_minute + req.transition_buffer_minutes) ≤
        s.start_minute := by
  obtain ⟨fb, hfb, rfl⟩ := build_ok_inv req resp hok
  obtain ⟨hbchain, hinv, _⟩ := build_ok_main req fb hv hfb
  intro s hs b hb
  have hs' : s ∈ (finalAssign req fb).scheduled_tasks :=
    (List.mem_insertionSort schedLe).mp hs
  have hb' : b ∈ fb := by
    rw [(sorted_ok_spec _ _ hfb).1]
    exact (List.mem_insertionSort blockLe).mpr hb
  have hbuf := hinv.sch_buf s hs' b hb'
  simpa [DisjI, bufferInterval] using hbuf

/-- C10: no zero-length interval is produced — in every pool state reachable
during the assignment loop every gap satisfies `0 ≤ start < end ≤ 1440`, and
every slot in the returned timeline satisfies `0 ≤ start < end ≤ 1440`. -/
theorem C10_no_degenerate_intervals (req : DayScheduleRequest)
    (fb : List FixedBlock) (resp : TimelineResponse) (hv : req.Valid)
    (hfb : sorted_non_overlapping_fixed_blocks req.fixed_blocks = .ok fb)
    (hok : build_day_timeline req = .ok resp) :
    (∀ st ∈ assignStates
        ⟨available_gaps fb req.transition_buffer_minutes, [], []⟩
        (List.insertionSort taskLe req.flexible_tasks),
      ∀ g ∈ st.available_gaps,
        0 ≤ g.start ∧ g.start < g.«end» ∧ g.«end» ≤ MINUTES_PER_DAY) ∧
    (∀ s ∈ resp.timeline,
      0 ≤ s.start_minute ∧ s.start_minute < s.end_minute ∧
        s.end_minute ≤ MINUTES_PER_DAY) := by
  obtain ⟨fb', hfb', rfl⟩ := build_ok_inv req resp hok
  have hfbeq : fb' = fb := by
    rw [hfb] at hfb'
    injection hfb' with h2
    exact h2.symm
  subst hfbeq
  obtain ⟨hbchain, hinv, hchain⟩ := build_ok_main req fb' hv hfb
  constructor
  · intro st hst g hg
    have hpinv := assignStates_inv _ _ req.transition_buffer_minutes fb'
      (initState_inv req fb' hv hfb)
      (fun t ht => (hv.2.1 t ((List.mem_insertionSort taskLe).mp ht)).1)
      st hst
    exact hpinv.gaps_in_day g hg
  · intro s hs
    exact slotchain_mem _ 0 hchain s hs

/-- C6: every scheduled task in the response to a valid request keeps the
identity fields and exact duration of an originating flexible task
(`end_minute - start_minute = duration_minutes`); and at each assignment step
that selects gap `g`, the task is bound to `[g.start, g.start + duration)`,
with the leftover `[g.start + duration, g.end)` pushed back into the pool
exactly when the task does not consume the whole gap. -/
theorem C6_duration_fidelity (req : DayScheduleRequest) (resp : TimelineResponse)
    (hv : req.Valid) (hok : build_day_timeline req = .ok resp) :
    (∀ s ∈ resp.scheduled_tasks, ∃ t ∈ req.flexible_tasks,
      s.id = t.id ∧ s.title = t.title ∧ s.category = t.category ∧
      s.priority = t.priority ∧
      s.end_minute - s.start_minute = t.duration_minutes) ∧
    (∀ (st : AssignState) (task : FlexibleTask) (i : Nat) (g : Interval),
      largest_fitting_gap_index st.available_gaps task.duration_minutes = some i →
      st.available_gaps[i]? = some g →
      (assignStep st task).scheduled_tasks = st.scheduled_tasks ++
        [⟨task.id, task.title, task.category, task.priority, g.start,
          g.start + task.duration_minutes⟩] ∧
      (g.start + task.duration_minutes < g.«end» →
        (assignStep st task).available_gaps = st.available_gaps.eraseIdx i ++
          [⟨g.start + task.duration_minutes, g.«end»⟩]) ∧
      (¬ g.start + task.duration_minutes < g.«end» →
        (assignStep st task).available_gaps = st.available_gaps.eraseIdx i)) := by
  constructor
  · obtain ⟨fb, hfb, rfl⟩ := build_ok_inv req resp hok
    intro s hs
    have hs' : s ∈ (finalAssign req fb).scheduled_tasks :=
      (List.mem_insertionSort schedLe).mp hs
    rcases assignLoop_origin _ _ s hs' with hmem | ⟨t, ht, hfields⟩
    · cases hmem
    · exact ⟨t, (List.mem_insertionSort taskLe).mp ht, hfields⟩
  · intro st task i g h hg
    rw [assignStep_some st task i g h hg]
    refine ⟨rfl, ?_, ?_⟩
    · intro hlt
      rw [if_pos hlt]
    · intro hge
      rw [if_neg hge]

/-- C7: for a valid request, the multiset of task ids in
`scheduled_tasks ++ unscheduled_tasks` is exactly the multiset of the
request's flexible-task ids; when the request's ids are distinct, each task
appears in exactly one of the two lists (never both, never neither); and a
task for which no gap fits is appended, unchanged, to `unscheduled_tasks`
while processing continues. -/
theorem C7_completeness (req : DayScheduleRequest) (resp : TimelineResponse)
    (hv : req.Valid) (hok : build_day_timeline req = .ok resp) :
    ((resp.scheduled_tasks.map ScheduledTask.id ++
      resp.unscheduled_tasks.map FlexibleTask.id).Perm
      (req.flexible_tasks.map FlexibleTask.id)) ∧
    ((req.flexible_tasks.map FlexibleTask.id).Nodup →
      ∀ t ∈ req.flexible_tasks,
        ((∃ s ∈ resp.scheduled_tasks, s.id = t.id) ↔
          ¬ ∃ u ∈ resp.unscheduled_tasks, u.id = t.id)) ∧
    (∀ (st : AssignState) (task : FlexibleTask),
      largest_fitting_gap_index st.available_gaps task.duration_minutes = none →
      assignStep st task =
        { st with unscheduled_tasks := st.unscheduled_tasks ++ [task] }) := by
  obtain ⟨fb, hfb, rfl⟩ := build_ok_inv req resp hok
  have hperm1 : ((List.insertionSort schedLe
      (finalAssign req fb).scheduled_tasks).map ScheduledTask.id ++
      (finalAssign req fb).unscheduled_tasks.map FlexibleTask.id).Perm
      ((finalAssign req fb).scheduled_tasks.map ScheduledTask.id ++
        (finalAssign req fb).unscheduled_tasks.map FlexibleTask.id) :=
    List.Perm.append
      ((List.perm_insertionSort schedLe _).map ScheduledTask.id)
      (List.Perm.refl _)
  have hperm2 := assignLoop_ids (List.insertionSort taskLe req.flexible_tasks)
    ⟨available_gaps fb req.transition_buffer_minutes, [], []⟩
  have hperm3 : ((finalAssign req fb).scheduled_tasks.map ScheduledTask.id ++
      (finalAssign req fb).unscheduled_tasks.map FlexibleTask.id).Perm
      (req.flexible_tasks.map FlexibleTask.id) := by
    refine hperm2.trans ?_
    simp only [List.map_nil, List.nil_append, List.append_nil]
    exact (List.perm_insertionSort taskLe req.flexible_tasks).map FlexibleTask.id
  have hperm : ((List.insertionSort schedLe
      (finalAssign req fb).scheduled_tasks).map ScheduledTask.id ++
      (finalAssign req fb).unscheduled_tasks.map FlexibleTask.id).Perm
      (req.flexible_tasks.map FlexibleTask.id) := hperm1.trans hperm3
  refine ⟨hperm, ?_, ?_⟩
  · intro hnodup t ht
    have hcomb : ((List.insertionSort schedLe
        (finalAssign req fb).scheduled_tasks).map ScheduledTask.id ++
        (finalAssign req fb).unscheduled_tasks.map FlexibleTask.id).Nodup :=
      hperm.nodup_iff.mpr hnodup
    obtain ⟨hn1, hn2, hdisj⟩ := List.nodup_append.mp hcomb
    have hmem : t.id ∈ (List.insertionSort schedLe
        (finalAssign req fb).scheduled_tasks).map ScheduledTask.id ++
        (finalAssign req fb).unscheduled_tasks.map FlexibleTask.id :=
      hperm.mem_iff.mpr (List.mem_map.mpr ⟨t, ht, rfl⟩)
    constructor
    · rintro ⟨s, hs, hsid⟩ ⟨u, hu, huid⟩
      have h1 : t.id ∈ (List.insertionSort schedLe
          (finalAssign req fb).scheduled_tasks).map ScheduledTask.id :=
        List.mem_map.mpr ⟨s, hs, hsid⟩
      have h2 : t.id ∈ (finalAssign req fb).unscheduled_tasks.map FlexibleTask.id :=
        List.mem_map.mpr ⟨u, hu, huid⟩
      exact hdisj h1 h2
    · intro hnu
      rcases List.mem_append.mp hmem with h1 | h2
      · obtain ⟨s, hs, hsid⟩ := List.mem_map.mp h1
        exact ⟨s, hs, hsid⟩
      · obtain ⟨u, hu, huid⟩ := List.mem_map.mp h2
        exact absurd ⟨u, hu, huid⟩ hnu
  · intro st task h
    exact assignStep_none st task h

theorem countP_block_unique (b : FixedBlock) :
    ∀ (l : List FixedBlock),
      List.Pairwise (fun x y => x.end_minute ≤ y.start_minute) l →
      (∀ x ∈ l, x.start_minute < x.end_minute) →
      b ∈ l →
      l.countP (fun x => decide (x.id = b.id ∧ x.title = b.title ∧
        x.start_minute = b.start_minute ∧ x.end_minute = b.end_minute)) = 1 := by
  intro l
  induction l with
  | nil => intro _ _ hb; cases hb
  | cons x xs ih =>
    intro hpw hlt hb
    have hpw' := List.pairwise_cons.mp hpw
    rw [List.countP_cons]
    by_cases hx : x.id = b.id ∧ x.title = b.title ∧
        x.start_minute = b.start_minute ∧ x.end_minute = b.end_minute
    · have hz : xs.countP (fun x : FixedBlock => decide (x.id = b.id ∧
          x.title = b.title ∧ x.start_minute = b.start_minute ∧
          x.end_minute = b.end_minute)) = 0 := by
        rw [List.countP_eq_zero]
        intro y hy hyq
        have hyp := of_decide_eq_true hyq
        have h1 := hpw'.1 y hy
        have h2 := hlt x (List.mem_cons_self _ _)
        omega
      rw [hz]
      simp [hx]
    · have hbxs : b ∈ xs := by
        rcases List.mem_cons.mp hb with rfl | h
        · exact absurd ⟨rfl, rfl, rfl, rfl⟩ hx
        · exact h
      rw [ih hpw'.2 (fun y hy => hlt y (List.mem_cons.mpr (Or.inr hy))) hbxs]
      simp [hx]

/-- C8: for a valid accepted request, every fixed block appears in the
returned timeline as exactly one slot of type `fixed` carrying the block's id,
title, and unchanged original bounds — buffering never alters a fixed slot. -/
theorem C8_fixed_block_fidelity (req : DayScheduleRequest)
    (resp : TimelineResponse) (hv : req.Valid)
    (hok : build_day_timeline req = .ok resp) :
    ∀ b ∈ req.fixed_blocks,
      resp.timeline.countP (fun s =>
        decide (s.slot_type = SlotType.fixed ∧ s.id = b.id ∧ s.title = b.title ∧
          s.start_minute = b.start_minute ∧ s.end_minute = b.end_minute)) = 1 := by
  obtain ⟨fb, hfb, rfl⟩ := build_ok_inv req resp hok
  obtain ⟨hbchain, hinv, _⟩ := build_ok_main req fb hv hfb
  intro b hb
  have hb' : b ∈ fb := by
    rw [(sorted_ok_spec _ _ hfb).1]
    exact (List.mem_insertionSort blockLe).mpr hb
  show (compose_timeline fb (finalAssign req fb).scheduled_tasks).countP _ = 1
  unfold compose_timeline
  rw [composeLoop_countP _ (by intro s e; simp)]
  rw [(List.perm_insertionSort slotLe _).countP_eq]
  rw [List.countP_append]
  have htask : ((finalAssign req fb).scheduled_tasks.map taskSlot).countP
      (fun s => decide (s.slot_type = SlotType.fixed ∧ s.id = b.id ∧
        s.title = b.title ∧ s.start_minute = b.start_minute ∧
        s.end_minute = b.end_minute)) = 0 := by
    rw [List.countP_eq_zero]
    intro s hs
    obtain ⟨t, _, rfl⟩ := List.mem_map.mp hs
    simp [taskSlot]
  rw [htask, Nat.add_zero]
  rw [List.countP_map]
  have hfun : ((fun s => decide (s.slot_type = SlotType.fixed ∧ s.id = b.id ∧
      s.title = b.title ∧ s.start_minute = b.start_minute ∧
      s.end_minute = b.end_minute)) ∘ fixedSlot) =
      (fun x : FixedBlock => decide (x.id = b.id ∧ x.title = b.title ∧
        x.start_minute = b.start_minute ∧ x.end_minute = b.end_minute)) := by
    funext x
    simp [fixedSlot, Function.comp]
  rw [hfun]
  exact countP_block_unique b fb (bchain_pairwise fb 0 hbchain)
    (fun x hx => (bchain_mem fb 0 hbchain x hx).2.1) hb'

/-! ### Concrete requests used for counterexamples and witnesses -/

/-- Request with blocks `[150,200)` and `[300,1440)`, buffer 0, and tasks
`t1` (priority 1, duration 50) and `t2` (priority 2, duration 100). Processing
`t1` splits the gap `[0,150)` and appends the leftover `[50,150)` after
`[200,300)`, so the pool for `t2` holds two fitting gaps of equal duration 100
with the later start first. -/
def tieReq : DayScheduleRequest :=
  ⟨[⟨"f1", "F1", 150, 200⟩, ⟨"f2", "F2", 300, 1440⟩],
   [⟨"t1", "T1", 50, 1, "c"⟩, ⟨"t2", "T2", 100, 2, "c"⟩], 0⟩

/-- Scenario 2 of the spec: one fixed block 540-570, buffer 15, no tasks. -/
def standupReq : DayScheduleRequest :=
  ⟨[⟨"standup", "Standup", 540, 570⟩], [], 15⟩

/-- One fixed block 540-570, buffer 15, one task of duration 60. -/
def demoReq : DayScheduleRequest :=
  ⟨[⟨"standup", "Standup", 540, 570⟩], [⟨"t1", "Deep work", 60, 1, "focus"⟩], 15⟩

/-- C2 counterexample: on `tieReq`, the pool
`[[200,300), [50,150)]` is reachable during assignment (after `t1` is
placed); both gaps fit `t2`'s duration 100 and share the maximal duration
100, yet the selector returns index 0 — the gap starting at 200, not the
earliest-start gap `[50,150)` — and the response indeed schedules `t2` at
200, not 50. This refutes the claimed earliest-start tie-break for pools
containing appended leftover gaps. -/
theorem C2_tiebreak_counterexample :
    ((⟨[⟨200, 300⟩, ⟨50, 150⟩], [⟨"t1", "T1", "c", 1, 0, 50⟩], []⟩ : AssignState) ∈
      assignStates
        ⟨available_gaps (List.insertionSort blockLe tieReq.fixed_blocks)
            tieReq.transition_buffer_minutes, [], []⟩
        (List.insertionSort taskLe tieReq.flexible_tasks)) ∧
    Interval.duration ⟨200, 300⟩ = 100 ∧ Interval.duration ⟨50, 150⟩ = 100 ∧
    largest_fitting_gap_index [⟨200, 300⟩, ⟨50, 150⟩] 100 = some 0 ∧
    (⟨200, 300⟩ : Interval).start = 200 ∧ (⟨50, 150⟩ : Interval).start = 50 ∧
    ((50 : Int) < 200) ∧
    (build_day_timeline tieReq).map (fun r => r.scheduled_tasks) =
      .ok [⟨"t1", "T1", "c", 1, 0, 50⟩, ⟨"t2", "T2", "c", 2, 200, 300⟩] := by
  refine ⟨by decide, rfl, rfl, by decide, rfl, rfl, by decide, by decide⟩

/-- C2 (amended): when the gap selector returns index `i`, the gap at `i`
fits, has maximal duration among all fitting gaps, and every fitting gap at a
smaller pool index has strictly smaller duration — i.e. ties on the maximal
duration are broken by lowest pool index (insertion order), not by earliest
start. For the initial pool, which is ordered by start, this coincides with
the earliest start: with gaps `[0,100)` and `[500,600)` of equal duration 100,
a task of duration 100 is placed at `[0,100)`. -/
theorem C2_tiebreak_insertion_order :
    (∀ (gaps : List Interval) (d : Int) (i : Nat),
      largest_fitting_gap_index gaps d = some i →
      ∃ g, gaps[i]? = some g ∧ d ≤ g.duration ∧
        (∀ (j : Nat) (g' : Interval), gaps[j]? = some g' → d ≤ g'.duration →
          g'.duration ≤ g.duration) ∧
        (∀ (j : Nat) (g' : Interval), j < i → gaps[j]? = some g' →
          d ≤ g'.duration → g'.duration < g.duration)) ∧
    largest_fitting_gap_index [⟨0, 100⟩, ⟨500, 600⟩] 100 = some 0 ∧
    (build_day_timeline ⟨[⟨"b1", "B1", 100, 500⟩, ⟨"b2", "B2", 600, 1440⟩],
        [⟨"t", "T", 100, 1, "c"⟩], 0⟩).map (fun r => r.scheduled_tasks) =
      .ok [⟨"t", "T", "c", 1, 0, 100⟩] :=
  ⟨largest_fitting_gap_index_spec, by decide, by decide⟩

/-- C3 counterexample: on `standupReq` (one fixed block 540-570, buffer 15,
no tasks) the free slots of the returned timeline are `[0,540)` and
`[570,1440)` — not `[0,525)` and `[585,1440)` as the claim states: the
composer derives free slots from the occupied slots alone and ignores the
buffer. -/
theorem C3_buffer_scenario_counterexample :
    (build_day_timeline standupReq).map (fun r =>
      (r.timeline.filter (fun s => decide (s.slot_type = SlotType.free))).map
        (fun s => (s.start_minute, s.end_minute))) =
      .ok [(0, 540), (570, 1440)] ∧
    ([((0 : Int), (540 : Int)), (570, 1440)] ≠
      [((0 : Int), (525 : Int)), (585, 1440)]) := by
  exact ⟨by decide, by decide⟩

/-- C3 (amended): for `standupReq` the buffered gap pool is exactly `[0,525)`
and `[585,1440)` — the buffer shapes the gaps offered to the assigner — while
the returned timeline keeps the fixed slot at its original bounds 540-570 and
emits free slots `[0,540)` and `[570,1440)`: buffering affects the gap pool
but not the emitted free slots. -/
theorem C3_buffer_scenario_amended :
    available_gaps (List.insertionSort blockLe standupReq.fixed_blocks)
      standupReq.transition_buffer_minutes = [⟨0, 525⟩, ⟨585, 1440⟩] ∧
    (build_day_timeline standupReq).map (fun r =>
      r.timeline.map (fun s => (s.slot_type, s.start_minute, s.end_minute))) =
      .ok [(SlotType.free, 0, 540), (SlotType.fixed, 540, 570),
        (SlotType.free, 570, 1440)] ∧
    (build_day_timeline standupReq).map (fun r =>
      (r.timeline.filter (fun s => decide (s.slot_type = SlotType.fixed))).map
        (fun s => (s.id, s.title, s.start_minute, s.end_minute))) =
      .ok [("standup", "Standup", 540, 570)] := by
  exact ⟨by decide, by decide, by decide⟩

/-- The response the engine returns for `demoReq`. -/
def demoResp : TimelineResponse :=
  { day_start_minute := 0, day_end_minute := 1440, transition_buffer_minutes := 15,
    timeline := [freeSlot 0 540, fixedSlot ⟨"standup", "Standup", 540, 570⟩,
      freeSlot 570 585, taskSlot ⟨"t1", "Deep work", "focus", 1, 585, 645⟩,
      freeSlot 645 1440],
    scheduled_tasks := [⟨"t1", "Deep work", "focus", 1, 585, 645⟩],
    unscheduled_tasks := [] }

/-! ### Witnesses: each claim theorem with hypotheses, applied at a concrete
valid request -/

/-- Witness for C1 at `demoReq`. -/
theorem C1_partition_witness :
    demoReq.Valid ∧ build_day_timeline demoReq = .ok demoResp ∧
    (SlotChainFrom 0 demoResp.timeline ∧
      List.Pairwise (fun a b => a.end_minute ≤ b.start_minute)
        demoResp.timeline) :=
  ⟨by decide, by decide, C1_partition demoReq demoResp (by decide) (by decide)⟩

/-- Witness for C4: the error on overlapping blocks A 0-60 and B 30-90 names
an adjacent overlapping pair with ids A and B. -/
theorem C4_overlap_error_witness :
    ∃ (i : Nat) (p c : FixedBlock),
      (List.insertionSort blockLe
        ([⟨"A", "A", 0, 60⟩, ⟨"B", "B", 30, 90⟩] : List FixedBlock))[i]? = some p ∧
      (List.insertionSort blockLe
        ([⟨"A", "A", 0, 60⟩, ⟨"B", "B", 30, 90⟩] : List FixedBlock))[i + 1]? =
        some c ∧
      c.start_minute < p.end_minute ∧ p.id = "A" ∧ c.id = "B" :=
  ((C4_overlap_error ⟨[⟨"A", "A", 0, 60⟩, ⟨"B", "B", 30, 90⟩], [], 15⟩).2.1
    "A" "B" (by decide)).2

/-- Witness for C5 at `demoReq`. -/
theorem C5_disjointness_witness :
    demoReq.Valid ∧ build_day_timeline demoReq = .ok demoResp ∧
    (List.Pairwise (fun a b =>
      a.end_minute ≤ b.start_minute ∨ b.end_minute ≤ a.start_minute)
      demoResp.scheduled_tasks ∧
    ∀ s ∈ demoResp.scheduled_tasks, ∀ b ∈ demoReq.fixed_blocks,
      s.end_minute ≤ b.start_minute ∨ b.end_minute ≤ s.start_minute) :=
  ⟨by decide, by decide, C5_disjointness demoReq demoResp (by decide) (by decide)⟩

/-- Witness for C6 at `demoReq`. -/
theorem C6_duration_fidelity_witness :
    demoReq.Valid ∧ build_day_timeline demoReq = .ok demoResp ∧
    ∀ s ∈ demoResp.scheduled_tasks, ∃ t ∈ demoReq.flexible_tasks,
      s.id = t.id ∧ s.title = t.title ∧ s.category = t.category ∧
      s.priority = t.priority ∧
      s.end_minute - s.start_minute = t.duration_minutes :=
  ⟨by decide, by decide,
    (C6_duration_fidelity demoReq demoResp (by decide) (by decide)).1⟩

/-- Witness for C7 at `demoReq`. -/
theorem C7_completeness_witness :
    demoReq.Valid ∧ build_day_timeline demoReq = .ok demoResp ∧
    (demoResp.scheduled_tasks.map ScheduledTask.id ++
      demoResp.unscheduled_tasks.map FlexibleTask.id).Perm
      (demoReq.flexible_tasks.map FlexibleTask.id) :=
  ⟨by decide, by decide,
    (C7_completeness demoReq demoResp (by decide) (by decide)).1⟩

/-- Witness for C8 at `demoReq` and its only fixed block. -/
theorem C8_fixed_block_fidelity_witness :
    demoReq.Valid ∧ build_day_timeline demoReq = .ok demoResp ∧
    demoResp.timeline.countP (fun s =>
      decide (s.slot_type = SlotType.fixed ∧ s.id = "standup" ∧
        s.title = "Standup" ∧ s.start_minute = 540 ∧ s.end_minute = 570)) = 1 :=
  ⟨by decide, by decide,
    C8_fixed_block_fidelity demoReq demoResp (by decide) (by decide)
      ⟨"standup", "Standup", 540, 570⟩ (by decide)⟩

/-- Witness for C9 at `demoReq`: the scheduled task 585-645 respects the
buffered interval [525, 585) ∪ block ∪ ... around the fixed block 540-570. -/
theorem C9_buffered_disjointness_witness :
    demoReq.Valid ∧ build_day_timeline demoReq = .ok demoResp ∧
    ((645 : Int) ≤ max 0 (540 - demoReq.transition_buffer_minutes) ∨
      min MINUTES_PER_DAY (570 + demoReq.transition_buffer_minutes) ≤ 585) :=
  ⟨by decide, by decide,
    C9_buffered_disjointness demoReq demoResp (by decide) (by decide)
      ⟨"t1", "Deep work", "focus", 1, 585, 645⟩ (by decide)
      ⟨"standup", "Standup", 540, 570⟩ (by decide)⟩

/-- Witness for C10 at `demoReq`. -/
theorem C10_no_degenerate_intervals_witness :
    demoReq.Valid ∧
    sorted_non_overlapping_fixed_blocks demoReq.fixed_blocks =
      .ok [⟨"standup", "Standup", 540, 570⟩] ∧
    build_day_timeline demoReq = .ok demoResp ∧
    ((∀ st ∈ assignStates
        ⟨available_gaps [⟨"standup", "Standup", 540, 570⟩]
            demoReq.transition_buffer_minutes, [], []⟩
        (List.insertionSort taskLe demoReq.flexible_tasks),
      ∀ g ∈ st.available_gaps,
        0 ≤ g.start ∧ g.start < g.«end» ∧ g.«end» ≤ MINUTES_PER_DAY) ∧
    (∀ s ∈ demoResp.timeline,
      0 ≤ s.start_minute ∧ s.start_minute < s.end_minute ∧
        s.end_minute ≤ MINUTES_PER_DAY)) :=
  ⟨by decide, by decide, by decide,
    C10_no_degenerate_intervals demoReq [⟨"standup", "Standup", 540, 570⟩]
      demoResp (by decide) (by decide) (by decide)⟩

end Zeno
